import Mathlib

/-
Verification development for the Pythagoras tree viewer
(orangecontrib/prototypes/widgets/pythagorastreeviewer.py).

Three subsystems are embedded:
  1. the rule algebra (DiscreteRule / ContinuousRule / IntervalRule and
     their merge_with methods),
  2. the geometric layout engine (PythagorasTree.pythagoras_tree,
     _compute_child, _compute_center, _rotate_point,
     _get_point_on_square_edge) over exact reals,
  3. the incremental visible-set controller
     (PythagorasTreeViewer._draw_tree, _depth_was_decreased) over an
     abstract finite tree of labelled nodes.

Python deques are embedded as Lean lists.  For the drawn deque the list
head corresponds to the right end of the deque (where pop and append
operate); for the frontier the list head corresponds to the left end
(where popleft and appendleft operate) and list append corresponds to
extend.  Python float values are embedded as exact reals (geometry) and
exact rationals (rule thresholds).
-/

namespace PyTree

/-! ## Rule algebra (lines 1205-1385 of the source) -/

/-- Embedding of the ContinuousRule constructor state: attr_name, gt
(stored as sign), value, inclusive. -/
structure ContinuousRule where
  attr_name : String
  sign : Bool
  value : ℚ
  inclusive : Bool
deriving DecidableEq

/-- The closed hierarchy of rule objects that can appear at runtime:
DiscreteRule (attr_name, eq stored as sign, value), ContinuousRule, and
IntervalRule (attr_name, left_rule, right_rule).  The IntervalRule
constructor type-checks both sides to be continuous; in the embedding the
fields are typed ContinuousRule, and the dynamic check of the Python
constructor is modelled at the call sites that could violate it. -/
inductive Rule where
  | disc (attr_name : String) (sign : Bool) (value : String)
  | cont (c : ContinuousRule)
  | interval (attr_name : String) (left_rule right_rule : ContinuousRule)
deriving DecidableEq

/-- Possible outcomes of a merge_with call in the source:
a returned rule, the TypeError that evaluating
raise NotImplemented(...) produces (NotImplementedType is not callable),
the implicit None returned when IntervalRule.merge_with falls through both
isinstance branches, and the AttributeError raised by the IntervalRule
constructor when handed a non-continuous side. -/
inductive MergeOut where
  | ok (r : Rule)
  | typeError
  | noneReturned
  | attributeError
deriving DecidableEq

/-- Result of a merge_with call: the outcome plus the warnings printed to
stderr during the call (each recorded as the pair of rules named in the
message of DiscreteRule.merge_with). -/
structure MergeRes where
  out : MergeOut
  warnings : List (Rule × Rule)
deriving DecidableEq

/-- ContinuousRule.merge_with restricted to a continuous argument
(lines 1302-1316): same sign keeps the larger value for gt rules and the
smaller value for the others, constructing the result without the
inclusive argument (so it defaults to False); opposite signs build an
IntervalRule from the gt rule and the non-gt rule. -/
def mergeContCont (self rule : ContinuousRule) : Rule :=
  if self.sign = rule.sign then
    if self.sign = true then
      Rule.cont ⟨self.attr_name, self.sign,
        if self.value > rule.value then self.value else rule.value, false⟩
    else
      Rule.cont ⟨self.attr_name, self.sign,
        if self.value < rule.value then self.value else rule.value, false⟩
  else
    let lt_rule := if self.sign = false then self else rule
    let gt_rule := if self.sign = false then rule else self
    Rule.interval self.attr_name gt_rule lt_rule

/-- Full dispatch of merge_with over the rule hierarchy, following the
source line by line.  DiscreteRule.merge_with (lines 1252-1258) prints a
warning and returns the incoming rule.  ContinuousRule.merge_with
(lines 1298-1316) evaluates raise NotImplemented(...) on a non-continuous
argument, which raises a TypeError.  IntervalRule.merge_with
(lines 1363-1378) merges a continuous argument into the matching side,
merges an interval argument side by side, and returns None for any other
argument; a side merge that yields an interval trips the AttributeError
check in the IntervalRule constructor. -/
def mergeWith : Rule → Rule → MergeRes
  | Rule.disc a e v, r => ⟨MergeOut.ok r, [(Rule.disc a e v, r)]⟩
  | Rule.cont c, Rule.cont c2 => ⟨MergeOut.ok (mergeContCont c c2), []⟩
  | Rule.cont _, _ => ⟨MergeOut.typeError, []⟩
  | Rule.interval a l r, Rule.cont c =>
    if c.sign then
      match mergeContCont l c with
      | Rule.cont l2 => ⟨MergeOut.ok (Rule.interval a l2 r), []⟩
      | _ => ⟨MergeOut.attributeError, []⟩
    else
      match mergeContCont r c with
      | Rule.cont r2 => ⟨MergeOut.ok (Rule.interval a l r2), []⟩
      | _ => ⟨MergeOut.attributeError, []⟩
  | Rule.interval a l r, Rule.interval _ l2 r2 =>
    match mergeContCont l l2 with
    | Rule.cont l3 =>
      match mergeContCont r r2 with
      | Rule.cont r3 => ⟨MergeOut.ok (Rule.interval a l3 r3), []⟩
      | _ => ⟨MergeOut.attributeError, []⟩
    | _ => ⟨MergeOut.attributeError, []⟩
  | Rule.interval _ _ _, _ => ⟨MergeOut.noneReturned, []⟩

end PyTree

namespace PyTree

/-! ## Visible-set controller (lines 203-295 of the source)

The controller operates on the TreeNode tree produced by the geometry
engine; for the depth-limit claims only the label and the ordered
children of each node matter, so nodes are embedded as finitely
branching trees of labels. -/

/-- A TreeNode as seen by the drawing controller: its label and its
ordered children. -/
inductive TNode : Type where
  | mk : Nat → List TNode → TNode

/-- Label accessor of a controller tree node. -/
def TNode.label : TNode → Nat
  | .mk l _ => l

/-- Ordered children accessor of a controller tree node. -/
def TNode.children : TNode → List TNode
  | .mk _ cs => cs

/-- All nodes at a given depth below a node (depth 0 is the node
itself); this realises reachability from the root through the children
sequences. -/
def atDepth : Nat → TNode → List TNode
  | 0, t => [t]
  | d + 1, t => t.children.flatMap (atDepth d)

/-- Labels of all nodes at depths below k; for k larger than the height
this is every label in the tree. -/
def labelsUpTo (k : Nat) (t : TNode) : List Nat :=
  (List.range k).flatMap (fun d => (atDepth d t).map TNode.label)

/-- Events emitted towards the rendering surface: creating a square
object for a node label, re-showing an existing one, hiding one. -/
inductive Ev where
  | createEv (l : Nat)
  | showEv (l : Nat)
  | hideEv (l : Nat)
deriving DecidableEq

/-- Controller state: the drawn deque (head = deepest end, where the
source pops and appends), the frontier deque (head = left end, where the
source seeds and pops), the labels possessing a square object
(_square_objects keys), the labels whose square object is currently
shown, and the events emitted since the state was created. -/
structure St where
  drawn : List (Nat × TNode)
  frontier : List (Nat × TNode)
  squares : List Nat
  visible : List Nat
  events : List Ev

/-- The shrink loop of _draw_tree (lines 240-250): pop entries from the
deep end of drawn while their depth exceeds the limit, push entries at
depth limit+1 onto the left of the frontier, and hide the square object
of every removed entry that has one. -/
def shrink (limit : Int) (squares : List Nat) :
    List (Nat × TNode) → List (Nat × TNode) → List Nat → List Ev → St
  | [], frontier, visible, events => ⟨[], frontier, squares, visible, events⟩
  | (d, n) :: rest, frontier, visible, events =>
    if (d : Int) ≤ limit then ⟨(d, n) :: rest, frontier, squares, visible, events⟩
    else
      shrink limit squares rest
        (if (d : Int) = limit + 1 then (d, n) :: frontier else frontier)
        (if n.label ∈ squares then visible.filter (fun l => l ≠ n.label) else visible)
        (if n.label ∈ squares then events ++ [Ev.hideEv n.label] else events)

mutual
/-- Number of nodes of a controller tree; used as the termination
measure of the grow loop. -/
def nodeSize : TNode → Nat
  | .mk _ cs => 1 + treeListSize cs
/-- Total number of nodes of a list of controller trees. -/
def treeListSize : List TNode → Nat
  | [] => 0
  | c :: cs => nodeSize c + treeListSize cs
end

/-- Sum of the sizes of the nodes stored in a deque; the termination
measure of the grow loop. -/
def dequeWeight (l : List (Nat × TNode)) : Nat :=
  (l.map (fun p => nodeSize p.2)).sum

lemma dequeWeight_children_lt (d : Nat) (n : TNode) :
    dequeWeight (n.children.map (fun c => (d, c))) < nodeSize n := by
  cases n with
  | mk l cs =>
    have h2 : ∀ ds : List TNode, dequeWeight (ds.map (fun c => (d, c))) = treeListSize ds := by
      intro ds
      induction ds with
      | nil => rfl
      | cons c cs ih =>
        simp only [List.map_cons, dequeWeight, List.sum_cons, treeListSize] at ih ⊢
        omega
    simp only [TNode.children, nodeSize, h2]
    omega

lemma dequeWeight_append (a b : List (Nat × TNode)) :
    dequeWeight (a ++ b) = dequeWeight a + dequeWeight b := by
  simp [dequeWeight]

/-- The grow loop of _draw_tree (lines 252-275): pop entries from the
left of the frontier while their depth is within the limit, append them
to drawn, extend the frontier with their children one level deeper, and
either show the existing square object or create a new one. -/
def grow (limit : Int) (drawn : List (Nat × TNode)) (frontier : List (Nat × TNode))
    (squares visible : List Nat) (events : List Ev) : St :=
  match frontier with
  | [] => ⟨drawn, [], squares, visible, events⟩
  | (d, n) :: rest =>
    if limit < (d : Int) then ⟨drawn, (d, n) :: rest, squares, visible, events⟩
    else if n.label ∈ squares then
      grow limit ((d, n) :: drawn) (rest ++ n.children.map (fun c => (d + 1, c)))
        squares (n.label :: visible) (events ++ [Ev.showEv n.label])
    else
      grow limit ((d, n) :: drawn) (rest ++ n.children.map (fun c => (d + 1, c)))
        (n.label :: squares) (n.label :: visible) (events ++ [Ev.createEv n.label])
termination_by dequeWeight frontier
decreasing_by
  all_goals
    have h := dequeWeight_children_lt (d + 1) n
    rw [dequeWeight_append]
    simp only [dequeWeight, List.map_cons, List.sum_cons]
    simp only [dequeWeight] at h
    omega

/-- The _depth_was_decreased check (lines 277-285): look at the deepest
entry of drawn and compare its depth against the new limit. -/
def depthWasDecreased (limit : Int) : List (Nat × TNode) → Bool
  | [] => false
  | (d, _) :: _ => decide (limit < (d : Int))

/-- One _draw_tree call (lines 229-276) at a given depth limit: seed the
frontier with the root when nothing is drawn, clear the frontier when the
limit decreased, run the shrink loop, then the grow loop. -/
def drawTree (root : TNode) (limit : Int) (s : St) : St :=
  let s1 : St :=
    if s.drawn.isEmpty then { s with frontier := (0, root) :: s.frontier } else s
  let s2 : St :=
    if depthWasDecreased limit s1.drawn then { s1 with frontier := [] } else s1
  let r := shrink limit s2.squares s2.drawn s2.frontier s2.visible s2.events
  grow limit r.drawn r.frontier r.squares r.visible r.events

/-- The empty controller state right after a tree has been computed and
before any drawing happened. -/
def initSt : St := ⟨[], [], [], [], []⟩

/-- Run a sequence of set_depth_limit calls, recording the events of
each call separately. -/
def runCalls (root : TNode) : List Int → St → St × List (List Ev)
  | [], s => (s, [])
  | l :: ls, s =>
    let s1 := drawTree root l { s with events := [] }
    let r := runCalls root ls s1
    (r.1, s1.events :: r.2)

/-- The controller state after a sequence of set_depth_limit calls
starting from the given state. -/
def applyCalls (root : TNode) (ls : List Int) (s : St) : St :=
  (runCalls root ls s).1

/-- Number of create events for a given label in an event list. -/
def countCreates (l : Nat) (evs : List Ev) : Nat :=
  (evs.filter (fun e => e = Ev.createEv l)).length

/-- Number of show events for a given label in an event list. -/
def countShows (l : Nat) (evs : List Ev) : Nat :=
  (evs.filter (fun e => e = Ev.showEv l)).length

/-- Number of hide events for a given label in an event list. -/
def countHides (l : Nat) (evs : List Ev) : Nat :=
  (evs.filter (fun e => e = Ev.hideEv l)).length

/-- Total number of create events in an event list, over all labels. -/
def totalCreates (evs : List Ev) : Nat :=
  (evs.filter (fun e => match e with | Ev.createEv _ => true | _ => false)).length

/-- Total number of show events in an event list. -/
def totalShows (evs : List Ev) : Nat :=
  (evs.filter (fun e => match e with | Ev.showEv _ => true | _ => false)).length

/-- Total number of hide events in an event list. -/
def totalHides (evs : List Ev) : Nat :=
  (evs.filter (fun e => match e with | Ev.hideEv _ => true | _ => false)).length

/-- The 3-level balanced binary tree used in the depth-limit scenario:
7 nodes, root label 0, depths 0, 1 and 2. -/
def binTree3 : TNode :=
  .mk 0 [.mk 1 [.mk 3 [], .mk 4 []], .mk 2 [.mk 5 [], .mk 6 []]]

/-! ## Geometry engine (lines 486-669 of the source)

Python floats are embedded as exact reals.  The abstract tree adapter is
embedded as a finite weighted tree: every node carries its label and the
weight the adapter reports for it (the weight of the root is never
consulted by the engine).  The per-traversal memo _slopes, a defaultdict
from Square values to lists of angles, is embedded as an association
list threaded through the traversal in evaluation order. -/

/-- A point of the plane, as in the Point namedtuple. -/
structure Point where
  x : ℝ
  y : ℝ

/-- A square of the layout, as in the Square namedtuple: center, side
length and angle of the drawing edge in radians. -/
structure Square where
  center : Point
  length : ℝ
  angle : ℝ

/-- The _slopes memo: association list from parent squares to the list
of angles already consumed by earlier children of that square. -/
def SlopeMap : Type := List (Square × List ℝ)

open Classical in
/-- Reading _slopes[square]: defaultdict semantics, a missing key reads
as the empty list. -/
noncomputable def slopesGet : SlopeMap → Square → List ℝ
  | [], _ => []
  | (k, v) :: rest, q => if k = q then v else slopesGet rest q

open Classical in
/-- Appending to _slopes[square]: defaultdict semantics, a missing key
is created with the one-element list. -/
noncomputable def slopesApp : SlopeMap → Square → ℝ → SlopeMap
  | [], q, a => [(q, [a])]
  | (k, v) :: rest, q, a =>
    if k = q then (k, v ++ [a]) :: rest else (k, v) :: slopesApp rest q a

/-- The abstract tree consumed by the engine: label, adapter weight,
ordered children. -/
inductive WTree : Type where
  | mk : Nat → ℝ → List WTree → WTree

/-- Label accessor of a weighted tree node. -/
def WTree.label : WTree → Nat
  | .mk l _ _ => l

/-- Adapter weight accessor of a weighted tree node. -/
def WTree.weight : WTree → ℝ
  | .mk _ w _ => w

/-- Children accessor of a weighted tree node. -/
def WTree.children : WTree → List WTree
  | .mk _ _ cs => cs

/-- All weighted-tree nodes at a given depth below a node. -/
def wAtDepth : Nat → WTree → List WTree
  | 0, t => [t]
  | d + 1, t => t.children.flatMap (wAtDepth d)

/-- The _rotate_point static method (lines 621-645): rotate a point
around another point by an angle, via translation to the origin, the
rotation matrix, and translation back. -/
noncomputable def rotatePoint (point around : Point) (alpha : ℝ) : Point :=
  let temp : Point := ⟨point.x - around.x, point.y - around.y⟩
  let temp2 : Point := ⟨temp.x * Real.cos alpha - temp.y * Real.sin alpha,
                        temp.x * Real.sin alpha + temp.y * Real.cos alpha⟩
  ⟨temp2.x + around.x, temp2.y + around.y⟩

/-- The _get_point_on_square_edge static method (lines 647-669): the
central point of the drawing edge of a square. -/
noncomputable def getPointOnSquareEdge (center : Point) (length angle : ℝ) : Point :=
  ⟨center.x + length / 2 * Real.cos angle,
   center.y + length / 2 * Real.sin angle⟩

open Classical in
/-- The _compute_center method (lines 575-619): side midpoint t0 as the
rotation origin, the diagonal-projected corner as the initial edge point,
an optional pre-rotation by the base angle for non-first children, the
rotation by alpha, the midpoint t2, and the final point on the edge of
the imaginary square at t2. -/
noncomputable def computeCenter (initialSquare : Square) (length alpha baseAngle : ℝ) :
    Point :=
  let t0 := getPointOnSquareEdge initialSquare.center initialSquare.length
    initialSquare.angle
  let squareDiagonalLength := Real.sqrt (2 * initialSquare.length ^ 2)
  let edge0 := getPointOnSquareEdge initialSquare.center squareDiagonalLength
    (initialSquare.angle - Real.pi / 4)
  let edge := if baseAngle ≠ 0 then rotatePoint edge0 t0 baseAngle else edge0
  let t1 := rotatePoint edge t0 alpha
  let t2 : Point := ⟨(t1.x + edge.x) / 2, (t1.y + edge.y) / 2⟩
  let slope := initialSquare.angle - Real.pi / 2 + alpha / 2
  getPointOnSquareEdge t2 length (slope + baseAngle)

/-- The TreeNode tree the engine produces, restricted to the data the
claims are about: label, computed square, ordered children. -/
inductive GTree : Type where
  | mk : Nat → Square → List GTree → GTree

/-- Label accessor of a produced layout node. -/
def GTree.label : GTree → Nat
  | .mk l _ _ => l

/-- Square accessor of a produced layout node. -/
def GTree.square : GTree → Square
  | .mk _ sq _ => sq

/-- Children accessor of a produced layout node. -/
def GTree.children : GTree → List GTree
  | .mk _ _ cs => cs

mutual
/-- The recursive pythagoras_tree method (lines 499-533): clear the
memo when the visited node is the adapter root, lay out the children in
adapter order, and build the TreeNode.  The engine instance state
_slopes is passed in and returned explicitly. -/
noncomputable def pythagorasTree (rootLabel : Nat) :
    WTree → Square → SlopeMap → GTree × SlopeMap
  | .mk l _ cs, square, slopes =>
    let slopes1 := if l = rootLabel then [] else slopes
    let r := computeChildren rootLabel square cs slopes1
    (.mk l square r.1, r.2)
/-- The children loop inside pythagoras_tree together with
_compute_child (lines 524-527 and 535-573): for each child in adapter
order compute alpha, the side length, the accumulated prior angles from
the memo entry of the exact parent square, the center, and the angle;
append alpha to the memo entry; then recurse into the subtree before
moving to the next sibling, exactly as the generator evaluation order of
the source does. -/
noncomputable def computeChildren (rootLabel : Nat) (parentSquare : Square) :
    List WTree → SlopeMap → List GTree × SlopeMap
  | [], s => ([], s)
  | c :: cs, s =>
    let weight := c.weight
    let alpha := weight * Real.pi
    let length := parentSquare.length * Real.sin (alpha / 2)
    let prevAngles := (slopesGet s parentSquare).sum
    let center := computeCenter parentSquare length alpha prevAngles
    let angle := parentSquare.angle - Real.pi / 2 + prevAngles + alpha / 2
    let square : Square := ⟨center, length, angle⟩
    let s1 := slopesApp s parentSquare alpha
    let r := pythagorasTree rootLabel c square s1
    let r2 := computeChildren rootLabel parentSquare cs r.2
    (r.1 :: r2.1, r2.2)
end

/-- The alphas the engine computes for a list of children, in adapter
order: the line alpha = weight * pi of _compute_child for each child. -/
noncomputable def childAlphas (cs : List WTree) : List ℝ :=
  cs.map (fun c => c.weight * Real.pi)

/-- The prior angle of the k-th child of a node: the sum of the alphas
of its earlier siblings in adapter order. -/
noncomputable def priorAngle (cs : List WTree) (k : Nat) : ℝ :=
  ((childAlphas cs).take k).sum

/-- The initial square of the drawing, from _calculate_tree (line 200):
center (0, 0), side length 200, angle minus half pi. -/
noncomputable def initialSquare : Square := ⟨⟨0, 0⟩, 200, -(Real.pi / 2)⟩

/-- The two-child example tree of the end-to-end scenario: a root whose
two children both have weight one half, all leaves below the root. -/
noncomputable def twoChildTree : WTree :=
  .mk 0 1 [.mk 1 (1 / 2) [], .mk 2 (1 / 2) []]

mutual
/-- Number of nodes of a weighted tree. -/
def wSize : WTree → Nat
  | .mk _ _ cs => 1 + wListSize cs
/-- Total number of nodes of a list of weighted trees. -/
def wListSize : List WTree → Nat
  | [] => 0
  | c :: cs => wSize c + wListSize cs
end

/-- Regularity of a subtree handed to the engine below the root: no node
reuses the adapter root label (so the memo is never cleared mid
traversal) and every node weight lies strictly between 0 and 1 (a
fractional share, as the spec defines weights). -/
def subtreeOK (rootLabel : Nat) (t : WTree) : Prop :=
  ∀ d : Nat, ∀ u ∈ wAtDepth d t, u.label ≠ rootLabel ∧ 0 < u.weight ∧ u.weight < 1

/-- Default weighted tree node for positional access. -/
noncomputable def dfltW : WTree := .mk 0 0 []

/-- Last element of a list of depth limits, with a default for the empty
list; the limit that governs the state after a call sequence. -/
def lastLimit : List Int → Int → Int
  | [], dflt => dflt
  | l :: ls, _ => lastLimit ls l

/-- The controller invariant tying a state to the tree and the limit of
the last draw call: drawn holds exactly the tree nodes within the limit,
sorted with the deepest entries at the popping end; the frontier holds
entries one level past the limit (or stale root seeds at depth 0 after a
limit below -1); the visible labels are exactly the drawn labels; and
every visible label owns a square object. -/
def Inv (t : TNode) (L : Int) (s : St) : Prop :=
  (∀ p ∈ s.drawn, p.2 ∈ atDepth p.1 t ∧ (p.1 : Int) ≤ L) ∧
  (∀ (d : Nat) (n : TNode), n ∈ atDepth d t → (d : Int) ≤ L → (d, n) ∈ s.drawn) ∧
  List.Pairwise (fun a b => b.1 ≤ a.1) s.drawn ∧
  (∀ p ∈ s.frontier, p.2 ∈ atDepth p.1 t ∧ ((p.1 : Int) = L + 1 ∨ (L ≤ -2 ∧ p.1 = 0))) ∧
  (-1 ≤ L → ∀ (d : Nat) (n : TNode), n ∈ atDepth d t → (d : Int) = L + 1 →
    (d, n) ∈ s.frontier) ∧
  (∀ l, l ∈ s.visible ↔ ∃ p ∈ s.drawn, p.2.label = l) ∧
  (∀ l, l ∈ s.visible → l ∈ s.squares)

/-- Postcondition of the grow loop, entered at level D: drawn gains
exactly the tree nodes between level D and the limit, stays sorted, the
frontier is left holding exactly the nodes one level past the limit, and
squares and visible gain exactly the labels of the materialized
levels. -/
def GrowPost (t : TNode) (limit : Int) (drawn : List (Nat × TNode))
    (squares visible : List Nat) (D : Nat) (R : St) : Prop :=
  (∀ p : Nat × TNode, p ∈ R.drawn ↔
    (p ∈ drawn ∨ (p.2 ∈ atDepth p.1 t ∧ D ≤ p.1 ∧ (p.1 : Int) ≤ limit))) ∧
  List.Pairwise (fun a b => b.1 ≤ a.1) R.drawn ∧
  (∀ p ∈ R.frontier, p.2 ∈ atDepth p.1 t ∧ (p.1 : Int) = limit + 1) ∧
  (∀ (d : Nat) (m : TNode), m ∈ atDepth d t → (d : Int) = limit + 1 →
    (d, m) ∈ R.frontier) ∧
  (∀ l, l ∈ R.squares ↔ l ∈ squares ∨ ∃ (d : Nat) (n : TNode),
    n ∈ atDepth d t ∧ D ≤ d ∧ (d : Int) ≤ limit ∧ n.label = l) ∧
  (∀ l, l ∈ R.visible ↔ l ∈ visible ∨ ∃ (d : Nat) (n : TNode),
    n ∈ atDepth d t ∧ D ≤ d ∧ (d : Int) ≤ limit ∧ n.label = l)

/-- C6: the layout is a pure function of the adapter tree and the
initial square.  A top-level pythagoras_tree call (node equal to the
adapter root) clears the per-traversal memo first, so two calls from any
two persisted memo states give identical results, and in particular
running the layout twice in sequence on the same engine gives identical
GTree values, square for square. -/
theorem layout_idempotent :
    (∀ (t : WTree) (sq : Square) (s₁ s₂ : SlopeMap),
      pythagorasTree t.label t sq s₁ = pythagorasTree t.label t sq s₂) ∧
    (∀ (t : WTree) (sq : Square) (s₀ : SlopeMap),
      (pythagorasTree t.label t sq (pythagorasTree t.label t sq s₀).2).1 =
        (pythagorasTree t.label t sq s₀).1) := by
  have key : ∀ (t : WTree) (sq : Square) (s₁ s₂ : SlopeMap),
      pythagorasTree t.label t sq s₁ = pythagorasTree t.label t sq s₂ := by
    intro t sq s₁ s₂
    cases t with
    | mk l w cs => simp [pythagorasTree, WTree.label]
  exact ⟨key, fun t sq s₀ => by rw [key t sq _ s₀]⟩

lemma slopesGet_app_self (s : SlopeMap) (q : Square) (a : ℝ) :
    slopesGet (slopesApp s q a) q = slopesGet s q ++ [a] := by
  induction s with
  | nil =>
    simp [slopesApp, slopesGet]
  | cons p rest ih =>
    obtain ⟨k, v⟩ := p
    by_cases h : k = q
    · simp [slopesApp, slopesGet, h]
    · simp [slopesApp, slopesGet, h, ih]

lemma slopesGet_app_other (s : SlopeMap) (q q' : Square) (a : ℝ) (h : q ≠ q') :
    slopesGet (slopesApp s q a) q' = slopesGet s q' := by
  induction s with
  | nil =>
    simp [slopesApp, slopesGet, h]
  | cons p rest ih =>
    obtain ⟨k, v⟩ := p
    by_cases hk : k = q
    · subst hk
      simp [slopesApp, slopesGet, h]
    · simp [slopesApp, slopesGet, hk, ih]

lemma wSize_pos (t : WTree) : 1 ≤ wSize t := by
  cases t with
  | mk l w cs => simp [wSize]

lemma wListSize_mem_le {c : WTree} {cs : List WTree} (h : c ∈ cs) :
    wSize c ≤ wListSize cs := by
  induction cs with
  | nil => cases h
  | cons d ds ih =>
    rcases List.mem_cons.mp h with h | h
    · subst h
      simp [wListSize]
    · have := ih h
      simp [wListSize]
      omega

lemma subtreeOK_self {rl : Nat} {t : WTree} (h : subtreeOK rl t) :
    t.label ≠ rl ∧ 0 < t.weight ∧ t.weight < 1 := by
  exact h 0 t (by simp [wAtDepth])

lemma subtreeOK_child {rl : Nat} {t c : WTree} (h : subtreeOK rl t)
    (hc : c ∈ t.children) : subtreeOK rl c := by
  intro d u hu
  refine h (d + 1) u ?_
  cases t with
  | mk l w cs =>
    simp only [WTree.children] at hc
    simp only [wAtDepth, WTree.children, List.mem_flatMap]
    exact ⟨c, hc, hu⟩

lemma sin_half_alpha_pos {w : ℝ} (h0 : 0 < w) (h1 : w < 1) :
    0 < Real.sin (w * Real.pi / 2) := by
  have hpi := Real.pi_pos
  apply Real.sin_pos_of_pos_of_lt_pi
  · positivity
  · nlinarith

lemma sin_half_alpha_lt_one {w : ℝ} (h0 : 0 < w) (h1 : w < 1) :
    Real.sin (w * Real.pi / 2) < 1 := by
  have hpi := Real.pi_pos
  have hcos : 0 < Real.cos (w * Real.pi / 2) := by
    apply Real.cos_pos_of_mem_Ioo
    constructor
    · nlinarith
    · nlinarith
  rcases lt_or_eq_of_le (Real.sin_le_one (w * Real.pi / 2)) with h | h
  · exact h
  · exfalso
    have hsq := Real.sin_sq_add_cos_sq (w * Real.pi / 2)
    nlinarith

/-- Memo keys strictly longer than the parent square are untouched by a
computeChildren traversal: every memo write in the subtree uses a key of
side length at most the parent side length. -/
lemma computeChildren_slopes_longer (rl : Nat) :
    ∀ (N : Nat) (cs : List WTree), wListSize cs ≤ N → ∀ (psq : Square) (s : SlopeMap),
      (∀ c ∈ cs, subtreeOK rl c) → 0 ≤ psq.length →
      ∀ q : Square, psq.length < q.length →
        slopesGet (computeChildren rl psq cs s).2 q = slopesGet s q := by
  intro N
  induction N with
  | zero =>
    intro cs hcs psq s hok hlen q hq
    match cs with
    | [] => simp [computeChildren]
    | c :: cs' =>
      exfalso
      have h1 := wSize_pos c
      simp [wListSize] at hcs
      omega
  | succ N ih =>
    intro cs hcs psq s hok hlen q hq
    match cs with
    | [] => simp [computeChildren]
    | c :: cs' =>
      have hokc := hok c (List.mem_cons_self c cs')
      obtain ⟨hlbl, hw0, hw1⟩ := subtreeOK_self hokc
      cases c with
      | mk l w cs_c =>
        simp only [WTree.label] at hlbl
        simp only [WTree.weight] at hw0 hw1
        have hsz : wSize (WTree.mk l w cs_c) + wListSize cs' ≤ N + 1 := by
          simpa [wListSize] using hcs
        have hszc : wListSize cs_c ≤ N := by
          have h1 := wSize_pos (WTree.mk l w cs_c)
          simp only [wSize] at hsz ⊢
          omega
        have hszr : wListSize cs' ≤ N := by
          have h1 := wSize_pos (WTree.mk l w cs_c)
          omega
        simp only [computeChildren, WTree.weight, pythagorasTree, if_neg hlbl]
        have hsin0 := sin_half_alpha_pos hw0 hw1
        have hsin1 := Real.sin_le_one (w * Real.pi / 2)
        have hlen2 : 0 ≤ psq.length * Real.sin (w * Real.pi / 2) := by
          apply mul_nonneg hlen (le_of_lt hsin0)
        have hlen3 : psq.length * Real.sin (w * Real.pi / 2) ≤ psq.length := by
          nlinarith
        rw [ih cs' hszr psq _ (fun c hc => hok c (List.mem_cons_of_mem _ hc)) hlen q hq]
        rw [ih cs_c hszc _ _ (fun c hc => subtreeOK_child hokc (by simpa [WTree.children] using hc))
          hlen2 q (by simp only; linarith)]
        exact slopesGet_app_other s psq q _ (by
          intro h
          rw [h] at hq
          exact lt_irrefl _ hq)

lemma priorAngle_zero (cs : List WTree) : priorAngle cs 0 = 0 := by
  simp [priorAngle]

lemma priorAngle_cons_succ (c : WTree) (cs : List WTree) (k : Nat) :
    priorAngle (c :: cs) (k + 1) = c.weight * Real.pi + priorAngle cs k := by
  simp [priorAngle, childAlphas]

/-- The square _compute_child assigns to the k-th child of a node with
parent square psq, traversing with memo state s: alpha is the child
weight times pi, the side length is the parent length times sin of half
alpha, the prior angle is the accumulated memo entry of the parent
square plus the alphas of the earlier siblings, the center comes from
_compute_center, and the angle is the parent angle minus half pi plus
the prior angle plus half alpha. -/
lemma computeChildren_square_spec (rl : Nat) :
    ∀ (cs : List WTree) (psq : Square) (s : SlopeMap) (k : Nat),
      (∀ c ∈ cs, subtreeOK rl c) → 0 < psq.length → k < cs.length →
      ((computeChildren rl psq cs s).1[k]?).map GTree.square =
        some ⟨computeCenter psq
                (psq.length * Real.sin ((cs.getD k dfltW).weight * Real.pi / 2))
                ((cs.getD k dfltW).weight * Real.pi)
                ((slopesGet s psq).sum + priorAngle cs k),
              psq.length * Real.sin ((cs.getD k dfltW).weight * Real.pi / 2),
              psq.angle - Real.pi / 2 + ((slopesGet s psq).sum + priorAngle cs k) +
                (cs.getD k dfltW).weight * Real.pi / 2⟩ := by
  intro cs
  induction cs with
  | nil =>
    intro psq s k hok hpos hk
    simp at hk
  | cons c cs' ih =>
    intro psq s k hok hpos hk
    have hokc := hok c (List.mem_cons_self c cs')
    obtain ⟨hlbl, hw0, hw1⟩ := subtreeOK_self hokc
    cases c with
    | mk l w cs_c =>
      simp only [WTree.label] at hlbl
      simp only [WTree.weight] at hw0 hw1
      match k with
      | 0 =>
        simp only [computeChildren, WTree.weight, pythagorasTree, if_neg hlbl,
          List.getElem?_cons_zero, Option.map_some, GTree.square, List.getD_cons_zero,
          priorAngle_zero, add_zero]
        simp [GTree.square]
      | k + 1 =>
        have hsin0 := sin_half_alpha_pos hw0 hw1
        have hsin1 := sin_half_alpha_lt_one hw0 hw1
        have hlen2 : 0 ≤ psq.length * Real.sin (w * Real.pi / 2) := by
          apply mul_nonneg (le_of_lt hpos) (le_of_lt hsin0)
        have hstrict : psq.length * Real.sin (w * Real.pi / 2) < psq.length := by
          nlinarith
        have hchild : ∀ u ∈ cs_c, subtreeOK rl u := by
          intro u hu
          exact subtreeOK_child hokc (by simpa [WTree.children] using hu)
        simp only [computeChildren, WTree.weight, pythagorasTree, if_neg hlbl,
          List.getElem?_cons_succ, List.getD_cons_succ, priorAngle_cons_succ]
        rw [ih psq _ k (fun u hu => hok u (List.mem_cons_of_mem _ hu)) hpos
          (by simpa using hk)]
        rw [computeChildren_slopes_longer rl (wListSize cs_c) cs_c le_rfl _ _ hchild
          hlen2 psq hstrict]
        rw [slopesGet_app_self]
        simp only [List.sum_append, List.sum_cons, List.sum_nil, add_zero]
        rcases hgd : cs'.getD k dfltW with ⟨l2, w2, cs2⟩
        simp only [hgd, WTree.weight]
        ring_nf

/-- C2: the geometry of every child square.  For a traversal in which
the memo entry of the parent square starts empty, the k-th child of a
node with parent square psq receives alpha equal to its weight times pi,
side length parent length times sin of half alpha, prior angle equal to
the sum of the alphas of its earlier siblings in adapter order, center
from the edge-rotation construction, and angle parent angle minus half
pi plus prior angle plus half alpha.  In particular, for a root with two
children of weight one half and initial square center (0,0), length 200,
angle minus half pi, both children get alpha half pi and length 200
times sin of quarter pi, and the second child has prior angle half
pi. -/
theorem child_square_formulas :
    (∀ (rl : Nat) (cs : List WTree) (psq : Square) (s : SlopeMap) (k : Nat),
      (∀ c ∈ cs, subtreeOK rl c) → 0 < psq.length → slopesGet s psq = [] →
      k < cs.length →
      ((computeChildren rl psq cs s).1[k]?).map GTree.square =
        some ⟨computeCenter psq
                (psq.length * Real.sin ((cs.getD k dfltW).weight * Real.pi / 2))
                ((cs.getD k dfltW).weight * Real.pi)
                (priorAngle cs k),
              psq.length * Real.sin ((cs.getD k dfltW).weight * Real.pi / 2),
              psq.angle - Real.pi / 2 + priorAngle cs k +
                (cs.getD k dfltW).weight * Real.pi / 2⟩) ∧
    childAlphas twoChildTree.children = [Real.pi / 2, Real.pi / 2] ∧
    priorAngle twoChildTree.children 1 = Real.pi / 2 ∧
    ((pythagorasTree 0 twoChildTree initialSquare []).1.children.map
        (fun g => g.square.length)) =
      [200 * Real.sin (Real.pi / 4), 200 * Real.sin (Real.pi / 4)] ∧
    ((pythagorasTree 0 twoChildTree initialSquare []).1.children.map
        (fun g => g.square.angle)) =
      [-(Real.pi / 2) - Real.pi / 2 + 0 + (Real.pi / 2) / 2,
       -(Real.pi / 2) - Real.pi / 2 + Real.pi / 2 + (Real.pi / 2) / 2] := by
  refine ⟨?_, ?_, ?_, ?_, ?_⟩
  · intro rl cs psq s k hok hpos hfresh hk
    rw [computeChildren_square_spec rl cs psq s k hok hpos hk, hfresh]
    simp only [List.sum_nil, zero_add]
  · simp only [twoChildTree, WTree.children, childAlphas, List.map_cons, List.map_nil,
      WTree.weight, List.cons.injEq, and_true]
    constructor <;> ring
  · simp only [twoChildTree, WTree.children, priorAngle, childAlphas, List.map_cons,
      List.map_nil, WTree.weight, List.take_succ_cons, List.take_zero, List.sum_cons,
      List.sum_nil, add_zero]
    ring
  · simp only [twoChildTree, initialSquare, pythagorasTree, computeChildren,
      WTree.weight, WTree.children, GTree.children, GTree.square, slopesGet, slopesApp,
      List.map_cons, List.map_nil]
    have harg : (1 : ℝ) / 2 * Real.pi / 2 = Real.pi / 4 := by ring
    norm_num [harg]
  · simp only [twoChildTree, initialSquare, pythagorasTree, computeChildren,
      WTree.weight, WTree.children, GTree.children, GTree.square, slopesGet, slopesApp,
      List.map_cons, List.map_nil]
    norm_num
    constructor <;> ring

lemma subtreeOK_leaf (rl lb : Nat) (w : ℝ) (h1 : lb ≠ rl) (h2 : 0 < w) (h3 : w < 1) :
    subtreeOK rl (.mk lb w []) := by
  intro d u hu
  match d with
  | 0 =>
    simp only [wAtDepth, List.mem_singleton] at hu
    subst hu
    exact ⟨by simpa [WTree.label] using h1, by simpa [WTree.weight] using h2,
      by simpa [WTree.weight] using h3⟩
  | d + 1 =>
    simp [wAtDepth, WTree.children] at hu

/-- Witness for C2: the hypotheses of the general formula hold for the
two-child scenario tree at the initial square, and the formula applied
to the second child gives its square. -/
theorem child_square_formulas_witness :
    ((∀ c ∈ twoChildTree.children, subtreeOK 0 c) ∧ 0 < initialSquare.length ∧
      slopesGet [] initialSquare = [] ∧ 1 < twoChildTree.children.length) ∧
    ((computeChildren 0 initialSquare twoChildTree.children []).1[1]?).map GTree.square =
      some ⟨computeCenter initialSquare
              (initialSquare.length *
                Real.sin ((twoChildTree.children.getD 1 dfltW).weight * Real.pi / 2))
              ((twoChildTree.children.getD 1 dfltW).weight * Real.pi)
              (priorAngle twoChildTree.children 1),
            initialSquare.length *
              Real.sin ((twoChildTree.children.getD 1 dfltW).weight * Real.pi / 2),
            initialSquare.angle - Real.pi / 2 + priorAngle twoChildTree.children 1 +
              (twoChildTree.children.getD 1 dfltW).weight * Real.pi / 2⟩ := by
  have hok : ∀ c ∈ twoChildTree.children, subtreeOK 0 c := by
    intro c hc
    simp only [twoChildTree, WTree.children, List.mem_cons, List.not_mem_nil,
      or_false] at hc
    rcases hc with rfl | rfl
    · exact subtreeOK_leaf 0 1 (1 / 2) (by norm_num) (by norm_num) (by norm_num)
    · exact subtreeOK_leaf 0 2 (1 / 2) (by norm_num) (by norm_num) (by norm_num)
  have hpos : 0 < initialSquare.length := by
    simp only [initialSquare]
    norm_num
  have hfresh : slopesGet [] initialSquare = [] := rfl
  have hk : 1 < twoChildTree.children.length := by
    simp [twoChildTree, WTree.children]
  exact ⟨⟨hok, hpos, hfresh, hk⟩,
    child_square_formulas.1 0 twoChildTree.children initialSquare [] 1 hok hpos hfresh hk⟩

lemma takeSum_nonneg {xs : List ℝ} (hx : ∀ x ∈ xs, 0 ≤ x) (k : Nat) :
    0 ≤ (xs.take k).sum := by
  apply List.sum_nonneg
  intro x hxm
  exact hx x (List.mem_of_mem_take hxm)

lemma takeSum_succ {xs : List ℝ} : ∀ {k : Nat}, k < xs.length →
    (xs.take (k + 1)).sum = (xs.take k).sum + xs.getD k 0 := by
  induction xs with
  | nil => intro k hk; simp at hk
  | cons x xs ih =>
    intro k hk
    match k with
    | 0 => simp
    | k + 1 =>
      simp only [List.take_succ_cons, List.sum_cons, List.getD_cons_succ]
      rw [ih (by simpa using hk)]
      ring

lemma takeSum_mono {xs : List ℝ} (hx : ∀ x ∈ xs, 0 ≤ x) {j k : Nat} (hjk : j ≤ k) :
    (xs.take j).sum ≤ (xs.take k).sum := by
  have h0 := List.take_append_drop j (xs.take k)
  rw [List.take_take, min_eq_left hjk] at h0
  rw [← h0, List.sum_append]
  have h1 : 0 ≤ ((xs.take k).drop j).sum := by
    apply List.sum_nonneg
    intro x hxm
    exact hx x (List.mem_of_mem_take (List.mem_of_mem_drop hxm))
  linarith

lemma takeSum_getD_le {xs : List ℝ} (hx : ∀ x ∈ xs, 0 ≤ x) (k : Nat) :
    (xs.take k).sum + xs.getD k 0 ≤ xs.sum := by
  rcases Nat.lt_or_ge k xs.length with hk | hk
  · rw [← takeSum_succ hk]
    conv_rhs => rw [← List.take_of_length_le (le_refl xs.length)]
    exact takeSum_mono hx (by omega)
  · rw [List.getD_eq_default xs 0 hk, add_zero, List.take_of_length_le hk]

lemma cover_aux : ∀ xs : List ℝ, (∀ x ∈ xs, 0 ≤ x) → ∀ y : ℝ, 0 ≤ y → y ≤ xs.sum →
    xs ≠ [] →
    ∃ k, k < xs.length ∧ (xs.take k).sum ≤ y ∧ y ≤ (xs.take k).sum + xs.getD k 0 := by
  intro xs
  induction xs with
  | nil => intro hx y h0 h1 hne; exact absurd rfl hne
  | cons x xs ih =>
    intro hx y h0 h1 hne
    rcases le_or_lt y x with hy | hy
    · exact ⟨0, by simp, by simpa using h0, by simpa using hy⟩
    · match hxs : xs with
      | [] =>
        exfalso
        simp only [List.sum_cons, List.sum_nil, add_zero] at h1
        linarith
      | z :: zs =>
        obtain ⟨k, hk, hk1, hk2⟩ := ih (fun u hu => hx u (List.mem_cons_of_mem _ hu))
          (y - x) (by linarith) (by simp only [List.sum_cons] at h1 ⊢; linarith)
          (by simp)
        refine ⟨k + 1, by simpa using hk, ?_, ?_⟩
        · simp only [List.take_succ_cons, List.sum_cons]
          linarith
        · simp only [List.take_succ_cons, List.sum_cons, List.getD_cons_succ]
          linarith

lemma childAlphas_sum_eq (cs : List WTree) :
    (childAlphas cs).sum = (cs.map WTree.weight).sum * Real.pi := by
  induction cs with
  | nil => simp [childAlphas]
  | cons c cs ih =>
    simp only [childAlphas, List.map_cons, List.sum_cons] at ih ⊢
    rw [ih]
    ring

lemma childAlphas_nonneg {cs : List WTree} (hw : ∀ c ∈ cs, 0 ≤ c.weight) :
    ∀ x ∈ childAlphas cs, 0 ≤ x := by
  intro x hxm
  simp only [childAlphas, List.mem_map] at hxm
  obtain ⟨c, hc, rfl⟩ := hxm
  have := Real.pi_pos
  have := hw c hc
  positivity

/-- C5: when the reported child weights are nonnegative shares summing
to 1, the alphas the engine computes for the children sum to exactly pi
(hence lie within the 1e-9 tolerance of pi), the angular sub-arcs
[priorAngle, priorAngle + alpha] are laid out consecutively in child
order, earlier arcs end before later arcs begin, and together the arcs
cover [0, pi] exactly. -/
theorem child_arcs_partition (cs : List WTree)
    (hw : ∀ c ∈ cs, 0 ≤ c.weight)
    (hsum : (cs.map WTree.weight).sum = 1) :
    (childAlphas cs).sum = Real.pi ∧
    |(childAlphas cs).sum - Real.pi| ≤ 1e-9 ∧
    (∀ k, k < cs.length →
      priorAngle cs (k + 1) = priorAngle cs k + (childAlphas cs).getD k 0) ∧
    (∀ j k, j < k → k < cs.length →
      priorAngle cs j + (childAlphas cs).getD j 0 ≤ priorAngle cs k) ∧
    (⋃ k ∈ Finset.range cs.length,
        Set.Icc (priorAngle cs k) (priorAngle cs k + (childAlphas cs).getD k 0)) =
      Set.Icc 0 Real.pi := by
  have hlen : (childAlphas cs).length = cs.length := by
    simp [childAlphas]
  have hnn := childAlphas_nonneg hw
  have hspi : (childAlphas cs).sum = Real.pi := by
    rw [childAlphas_sum_eq, hsum, one_mul]
  refine ⟨hspi, by rw [hspi]; simp; norm_num, ?_, ?_, ?_⟩
  · intro k hk
    exact takeSum_succ (by omega)
  · intro j k hjk hk
    have h1 : priorAngle cs j + (childAlphas cs).getD j 0 = priorAngle cs (j + 1) :=
      (takeSum_succ (by omega)).symm
    rw [h1]
    exact takeSum_mono hnn (by omega)
  · ext y
    simp only [Set.mem_iUnion, Finset.mem_range, Set.mem_Icc, exists_prop]
    constructor
    · rintro ⟨k, hk, h1, h2⟩
      constructor
      · exact le_trans (takeSum_nonneg hnn k) h1
      · calc y ≤ priorAngle cs k + (childAlphas cs).getD k 0 := h2
          _ ≤ (childAlphas cs).sum := takeSum_getD_le hnn k
          _ = Real.pi := hspi
    · rintro ⟨h1, h2⟩
      have hne : childAlphas cs ≠ [] := by
        intro h
        rw [h] at hspi
        simp only [List.sum_nil] at hspi
        have := Real.pi_pos
        linarith
      obtain ⟨k, hk, hk1, hk2⟩ := cover_aux (childAlphas cs) hnn y h1
        (by rw [hspi]; exact h2) hne
      exact ⟨k, by omega, hk1, hk2⟩

/-- Witness for C5: the two-child scenario satisfies the weight
hypotheses and the partition conclusions hold for it. -/
theorem child_arcs_partition_witness :
    ((∀ c ∈ twoChildTree.children, 0 ≤ c.weight) ∧
      (twoChildTree.children.map WTree.weight).sum = 1) ∧
    ((childAlphas twoChildTree.children).sum = Real.pi ∧
    |(childAlphas twoChildTree.children).sum - Real.pi| ≤ 1e-9 ∧
    (∀ k, k < twoChildTree.children.length →
      priorAngle twoChildTree.children (k + 1) =
        priorAngle twoChildTree.children k + (childAlphas twoChildTree.children).getD k 0) ∧
    (∀ j k, j < k → k < twoChildTree.children.length →
      priorAngle twoChildTree.children j + (childAlphas twoChildTree.children).getD j 0 ≤
        priorAngle twoChildTree.children k) ∧
    (⋃ k ∈ Finset.range twoChildTree.children.length,
        Set.Icc (priorAngle twoChildTree.children k)
          (priorAngle twoChildTree.children k +
            (childAlphas twoChildTree.children).getD k 0)) =
      Set.Icc 0 Real.pi) := by
  have hw : ∀ c ∈ twoChildTree.children, 0 ≤ c.weight := by
    intro c hc
    simp only [twoChildTree, WTree.children, List.mem_cons, List.not_mem_nil,
      or_false] at hc
    rcases hc with rfl | rfl <;> simp [WTree.weight]
  have hsum : (twoChildTree.children.map WTree.weight).sum = 1 := by
    simp only [twoChildTree, WTree.children, List.map_cons, List.map_nil, WTree.weight,
      List.sum_cons, List.sum_nil]
    norm_num
  exact ⟨⟨hw, hsum⟩, child_arcs_partition twoChildTree.children hw hsum⟩

/-- C3: merging two ContinuousRules on the same attribute with the same
direction yields a single ContinuousRule with the tighter bound (max of
the values when both are greaterThan, min when both are upper bounds);
with differing directions it yields an IntervalRule whose left side is
the greaterThan rule and whose right side is the non-greaterThan rule.
In particular values 5 and 8 with greaterThan true merge to value 8, and
merging x gt 5 with x le 10 yields an IntervalRule with left value 5 and
right value 10. -/
theorem continuous_merge_same_direction_tighter :
    (∀ (a : String) (g : Bool) (v₁ v₂ : ℚ) (i₁ i₂ : Bool),
      mergeWith (Rule.cont ⟨a, g, v₁, i₁⟩) (Rule.cont ⟨a, g, v₂, i₂⟩) =
        ⟨MergeOut.ok (Rule.cont ⟨a, g, if g then max v₁ v₂ else min v₁ v₂, false⟩), []⟩) ∧
    (∀ (a : String) (v₁ v₂ : ℚ) (i₁ i₂ : Bool),
      mergeWith (Rule.cont ⟨a, true, v₁, i₁⟩) (Rule.cont ⟨a, false, v₂, i₂⟩) =
        ⟨MergeOut.ok (Rule.interval a ⟨a, true, v₁, i₁⟩ ⟨a, false, v₂, i₂⟩), []⟩) ∧
    (∀ (a : String) (v₁ v₂ : ℚ) (i₁ i₂ : Bool),
      mergeWith (Rule.cont ⟨a, false, v₁, i₁⟩) (Rule.cont ⟨a, true, v₂, i₂⟩) =
        ⟨MergeOut.ok (Rule.interval a ⟨a, true, v₂, i₂⟩ ⟨a, false, v₁, i₁⟩), []⟩) ∧
    mergeWith (Rule.cont ⟨"x", true, 5, false⟩) (Rule.cont ⟨"x", true, 8, false⟩) =
      ⟨MergeOut.ok (Rule.cont ⟨"x", true, 8, false⟩), []⟩ ∧
    mergeWith (Rule.cont ⟨"x", true, 5, false⟩) (Rule.cont ⟨"x", false, 10, true⟩) =
      ⟨MergeOut.ok (Rule.interval "x" ⟨"x", true, 5, false⟩ ⟨"x", false, 10, true⟩), []⟩ := by
  refine ⟨?_, ?_, ?_, ?_, ?_⟩
  · intro a g v₁ v₂ i₁ i₂
    have hv : (if v₁ > v₂ then v₁ else v₂) = max v₁ v₂ := by
      rw [max_def]
      split_ifs <;> first | rfl | linarith
    have hv2 : (if v₁ < v₂ then v₁ else v₂) = min v₁ v₂ := by
      rw [min_def]
      split_ifs <;> first | rfl | linarith
    cases g <;> simp [mergeWith, mergeContCont, hv, hv2]
  · intro a v₁ v₂ i₁ i₂
    simp [mergeWith, mergeContCont]
  · intro a v₁ v₂ i₁ i₂
    simp [mergeWith, mergeContCont]
  · decide
  · decide

/-- C10: when two ContinuousRules with the same direction are merged, the
resulting ContinuousRule always has inclusive false, regardless of the
inclusive flags of the inputs. -/
theorem continuous_merge_inclusive_dropped (r₁ r₂ : ContinuousRule) (c : ContinuousRule)
    (hsign : r₁.sign = r₂.sign)
    (h : mergeContCont r₁ r₂ = Rule.cont c) : c.inclusive = false := by
  unfold mergeContCont at h
  rw [if_pos hsign] at h
  by_cases hg : r₁.sign = true
  · rw [if_pos hg] at h
    cases h
    rfl
  · rw [if_neg hg] at h
    cases h
    rfl

/-- Witness for C10 at concrete inputs: merging x gt 5 (inclusive) with
x gt 8 (inclusive) yields a ContinuousRule and its inclusive flag is
false even though both inputs were inclusive. -/
theorem continuous_merge_inclusive_dropped_witness :
    (⟨"x", true, 5, true⟩ : ContinuousRule).sign = (⟨"x", true, 8, true⟩ : ContinuousRule).sign ∧
    mergeContCont ⟨"x", true, 5, true⟩ ⟨"x", true, 8, true⟩ =
      Rule.cont ⟨"x", true, 8, false⟩ ∧
    (⟨"x", true, 8, false⟩ : ContinuousRule).inclusive = false :=
  ⟨by decide, by decide,
    continuous_merge_inclusive_dropped ⟨"x", true, 5, true⟩ ⟨"x", true, 8, true⟩
      ⟨"x", true, 8, false⟩ (by decide) (by decide)⟩

/-- C9: DiscreteRule.merge_with never fails for any argument; it returns
the incoming rule unchanged and records exactly one stderr warning naming
the two rules, and the receiver value is untouched (the embedding is
pure, and the outcome depends on the receiver only through the warning
text). -/
theorem discrete_merge_total (a : String) (e : Bool) (v : String) (other : Rule) :
    mergeWith (Rule.disc a e v) other =
      ⟨MergeOut.ok other, [(Rule.disc a e v, other)]⟩ := by
  rfl

/-- C4 (code behaviour at the failing inputs): ContinuousRule.merge_with
with a non-continuous argument ends in the TypeError produced by calling
NotImplemented, not in a typed UnsupportedMergeError, and
IntervalRule.merge_with with an argument that is neither continuous nor
an interval returns None instead of raising; shown for a discrete
argument in both cases, plus the general statements for every discrete
argument. -/
theorem unsupported_merge_does_not_raise_typed_error :
    (∀ (a b : String) (e : Bool) (v : String) (c : ContinuousRule),
      mergeWith (Rule.cont c) (Rule.disc b e v) = ⟨MergeOut.typeError, []⟩ ∧
      ∀ l r : ContinuousRule,
        mergeWith (Rule.interval a l r) (Rule.disc b e v) = ⟨MergeOut.noneReturned, []⟩) ∧
    mergeWith (Rule.cont ⟨"x", true, 5, false⟩) (Rule.disc "c" true "red") =
      ⟨MergeOut.typeError, []⟩ ∧
    mergeWith (Rule.interval "x" ⟨"x", true, 1, false⟩ ⟨"x", false, 3, false⟩)
        (Rule.disc "c" true "red") = ⟨MergeOut.noneReturned, []⟩ := by
  refine ⟨?_, by decide, by decide⟩
  intro a b e v c
  exact ⟨rfl, fun l r => rfl⟩

/-! ### Controller lemmas -/

lemma atDepth_succ_flat : ∀ (d : Nat) (t : TNode),
    atDepth (d + 1) t = (atDepth d t).flatMap TNode.children := by
  intro d
  induction d with
  | zero =>
    intro t
    simp [atDepth]
  | succ d ih =>
    intro t
    have h1 : atDepth (d + 2) t = t.children.flatMap (atDepth (d + 1)) := rfl
    rw [h1]
    have h2 : atDepth (d + 1) t = t.children.flatMap (atDepth d) := rfl
    rw [h2]
    rw [List.flatMap_assoc]
    congr 1
    funext c
    exact ih c

lemma mem_atDepth_succ {d : Nat} {t m : TNode} :
    m ∈ atDepth (d + 1) t ↔ ∃ n ∈ atDepth d t, m ∈ n.children := by
  rw [atDepth_succ_flat]
  exact List.mem_flatMap

lemma atDepth_empty_succ {t : TNode} {d : Nat} (h : atDepth d t = []) :
    atDepth (d + 1) t = [] := by
  rw [atDepth_succ_flat, h]
  rfl

lemma atDepth_empty_mono {t : TNode} {d d2 : Nat} (h : atDepth d t = [])
    (hd : d ≤ d2) : atDepth d2 t = [] := by
  induction d2 with
  | zero =>
    have h0 : d = 0 := by omega
    subst h0
    exact h
  | succ d2 ih =>
    rcases Nat.lt_or_ge d (d2 + 1) with h2 | h2
    · exact atDepth_empty_succ (ih (by omega))
    · have h3 : d = d2 + 1 := by omega
      subst h3
      exact h


lemma shrink_drawn (limit : Int) (squares : List Nat) :
    ∀ (drawn frontier : List (Nat × TNode)) (visible : List Nat) (events : List Ev),
      (shrink limit squares drawn frontier visible events).drawn =
        drawn.dropWhile (fun p => decide (limit < (p.1 : Int))) := by
  intro drawn
  induction drawn with
  | nil =>
    intro frontier visible events
    simp [shrink]
  | cons p rest ih =>
    intro frontier visible events
    obtain ⟨d, n⟩ := p
    by_cases h : (d : Int) ≤ limit
    · simp [shrink, h, List.dropWhile_cons, not_lt.mpr h]
    · simp [shrink, h, List.dropWhile_cons, lt_of_not_le h, ih]

lemma shrink_squares (limit : Int) (squares : List Nat) :
    ∀ (drawn frontier : List (Nat × TNode)) (visible : List Nat) (events : List Ev),
      (shrink limit squares drawn frontier visible events).squares = squares := by
  intro drawn
  induction drawn with
  | nil =>
    intro frontier visible events
    simp [shrink]
  | cons p rest ih =>
    intro frontier visible events
    obtain ⟨d, n⟩ := p
    by_cases h : (d : Int) ≤ limit
    · simp [shrink, h]
    · simp [shrink, h, ih]

lemma shrink_frontier (limit : Int) (squares : List Nat) :
    ∀ (drawn frontier : List (Nat × TNode)) (visible : List Nat) (events : List Ev),
      (shrink limit squares drawn frontier visible events).frontier =
        ((drawn.takeWhile (fun p => decide (limit < (p.1 : Int)))).filter
          (fun p => decide ((p.1 : Int) = limit + 1))).reverse ++ frontier := by
  intro drawn
  induction drawn with
  | nil =>
    intro frontier visible events
    simp [shrink]
  | cons p rest ih =>
    intro frontier visible events
    obtain ⟨d, n⟩ := p
    by_cases h : (d : Int) ≤ limit
    · simp [shrink, h, List.takeWhile_cons, not_lt.mpr h]
    · rw [shrink]
      rw [if_neg h]
      rw [ih]
      rw [List.takeWhile_cons]
      simp only [decide_eq_true_eq, lt_of_not_le h, decide_True, List.filter_cons]
      by_cases h2 : (d : Int) = limit + 1
      · simp only [h2, decide_True, if_pos, List.reverse_cons, List.append_assoc,
          List.singleton_append]
        simp [h2]
      · simp [h2]

lemma shrink_events (limit : Int) (squares : List Nat) :
    ∀ (drawn frontier : List (Nat × TNode)) (visible : List Nat) (events : List Ev),
      (shrink limit squares drawn frontier visible events).events =
        events ++ ((drawn.takeWhile (fun p => decide (limit < (p.1 : Int)))).filter
          (fun p => decide (p.2.label ∈ squares))).map (fun p => Ev.hideEv p.2.label) := by
  intro drawn
  induction drawn with
  | nil =>
    intro frontier visible events
    simp [shrink]
  | cons p rest ih =>
    intro frontier visible events
    obtain ⟨d, n⟩ := p
    by_cases h : (d : Int) ≤ limit
    · simp [shrink, h, List.takeWhile_cons, not_lt.mpr h]
    · rw [shrink]
      rw [if_neg h]
      rw [ih]
      rw [List.takeWhile_cons]
      simp only [decide_eq_true_eq, lt_of_not_le h, decide_True, List.filter_cons]
      by_cases h2 : n.label ∈ squares
      · simp [h2]
      · simp [h2]

lemma shrink_visible_mem (limit : Int) (squares : List Nat) :
    ∀ (drawn frontier : List (Nat × TNode)) (visible : List Nat) (events : List Ev)
      (l : Nat),
      l ∈ (shrink limit squares drawn frontier visible events).visible ↔
        (l ∈ visible ∧ ∀ p ∈ drawn.takeWhile (fun p => decide (limit < (p.1 : Int))),
          p.2.label ∈ squares → p.2.label ≠ l) := by
  intro drawn
  induction drawn with
  | nil =>
    intro frontier visible events l
    simp [shrink]
  | cons p rest ih =>
    intro frontier visible events l
    obtain ⟨d, n⟩ := p
    by_cases h : (d : Int) ≤ limit
    · simp [shrink, h, List.takeWhile_cons, not_lt.mpr h]
    · rw [shrink]
      rw [if_neg h]
      rw [ih]
      rw [List.takeWhile_cons]
      simp only [decide_eq_true_eq, lt_of_not_le h, decide_True, if_true,
        List.mem_cons, forall_eq_or_imp]
      by_cases h2 : n.label ∈ squares
      · simp only [h2, if_pos, List.mem_filter, decide_eq_true_eq]
        constructor
        · rintro ⟨⟨hv, hne⟩, hrest⟩
          exact ⟨hv, ⟨fun _ => by simpa [ne_comm] using hne, hrest⟩⟩
        · rintro ⟨hv, ⟨hhead, hrest⟩⟩
          exact ⟨⟨hv, by simpa [ne_comm] using hhead trivial⟩, hrest⟩
      · simp only [h2, if_neg, if_false]
        constructor
        · rintro ⟨hv, hrest⟩
          exact ⟨hv, ⟨fun hc => hc.elim, hrest⟩⟩
        · rintro ⟨hv, ⟨_, hrest⟩⟩
          exact ⟨hv, hrest⟩


lemma countCreates_append (l : Nat) (a b : List Ev) :
    countCreates l (a ++ b) = countCreates l a + countCreates l b := by
  simp [countCreates]

lemma grow_squares_mono (limit : Int) :
    ∀ (drawn frontier : List (Nat × TNode)) (squares visible : List Nat)
      (events : List Ev) (l : Nat), l ∈ squares →
      l ∈ (grow limit drawn frontier squares visible events).squares := by
  intro drawn frontier squares visible events
  induction drawn, frontier, squares, visible, events using grow.induct limit with
  | case1 drawn squares visible events =>
    intro l hl
    rw [grow]
    exact hl
  | case2 drawn squares visible events d n rest hstop =>
    intro l hl
    rw [grow, if_pos hstop]
    exact hl
  | case3 drawn squares visible events d n rest hstop hmem ih =>
    intro l hl
    rw [grow, if_neg hstop, if_pos hmem]
    exact ih l hl
  | case4 drawn squares visible events d n rest hstop hmem ih =>
    intro l hl
    rw [grow, if_neg hstop, if_neg hmem]
    exact ih l (List.mem_cons_of_mem _ hl)

lemma grow_createCount (limit : Int) :
    ∀ (drawn frontier : List (Nat × TNode)) (squares visible : List Nat)
      (events : List Ev) (l : Nat),
      countCreates l (grow limit drawn frontier squares visible events).events =
        countCreates l events +
          (if l ∈ (grow limit drawn frontier squares visible events).squares ∧ l ∉ squares
           then 1 else 0) := by
  intro drawn frontier squares visible events
  induction drawn, frontier, squares, visible, events using grow.induct limit with
  | case1 drawn squares visible events =>
    intro l
    rw [grow]
    simp
  | case2 drawn squares visible events d n rest hstop =>
    intro l
    rw [grow, if_pos hstop]
    simp
  | case3 drawn squares visible events d n rest hstop hmem ih =>
    intro l
    rw [grow, if_neg hstop, if_pos hmem]
    rw [ih l, countCreates_append]
    have h0 : countCreates l [Ev.showEv n.label] = 0 := by
      simp [countCreates]
    omega
  | case4 drawn squares visible events d n rest hstop hmem ih =>
    intro l
    rw [grow, if_neg hstop, if_neg hmem]
    rw [ih l, countCreates_append]
    have hin : n.label ∈ (grow limit ((d, n) :: drawn)
        (rest ++ n.children.map (fun c => (d + 1, c)))
        (n.label :: squares) (n.label :: visible)
        (events ++ [Ev.createEv n.label])).squares :=
      grow_squares_mono limit _ _ _ _ _ n.label (List.mem_cons_self _ _)
    by_cases hl : l = n.label
    · subst hl
      have h1 : countCreates n.label [Ev.createEv n.label] = 1 := by
        simp [countCreates]
      rw [if_neg, if_pos ⟨hin, hmem⟩]
      · omega
      · intro hand
        exact hand.2 (List.mem_cons_self _ _)
    · have h1 : countCreates l [Ev.createEv n.label] = 0 := by
        simp [countCreates, Ne.symm hl]
      have h5 : l ∉ n.label :: squares ↔ l ∉ squares := by
        simp [List.mem_cons, hl]
      by_cases h6 : l ∈ (grow limit ((d, n) :: drawn)
          (rest ++ List.map (fun c => (d + 1, c)) n.children)
          (n.label :: squares) (n.label :: visible)
          (events ++ [Ev.createEv n.label])).squares ∧ l ∉ squares
      · rw [if_pos h6, if_pos ⟨h6.1, h5.mpr h6.2⟩]
        omega
      · rw [if_neg h6, if_neg (by intro hand; exact h6 ⟨hand.1, h5.mp hand.2⟩)]
        omega


lemma grow_master (t : TNode) (limit : Int) :
    ∀ (drawn frontier : List (Nat × TNode)) (squares visible : List Nat)
      (events : List Ev) (D : Nat) (F G : List (Nat × TNode)),
      frontier = F ++ G →
      (∀ p ∈ F, p.1 = D ∧ p.2 ∈ atDepth D t) →
      (∀ p ∈ G, p.1 = D + 1 ∧ p.2 ∈ atDepth (D + 1) t) →
      (limit < (D : Int) → G = []) →
      (D : Int) ≤ limit + 1 →
      (∀ n ∈ atDepth D t, (D, n) ∈ F ∨ (D, n) ∈ drawn) →
      (∀ m ∈ atDepth (D + 1) t, (D + 1, m) ∈ G ∨ ∃ p ∈ F, m ∈ p.2.children) →
      (∀ p ∈ drawn, p.2 ∈ atDepth p.1 t ∧ (p.1 : Int) ≤ limit ∧ p.1 ≤ D) →
      List.Pairwise (fun a b => b.1 ≤ a.1) drawn →
      (∀ p ∈ drawn, p.2.label ∈ squares ∧ p.2.label ∈ visible) →
      GrowPost t limit drawn squares visible D
        (grow limit drawn frontier squares visible events) := by
  intro drawn frontier squares visible events
  induction drawn, frontier, squares, visible, events using grow.induct limit with
  | case1 drawn squares visible events =>
    intro D F G hsplit hF hG hGe hD hc1 hc2 hdb hsort hdl
    rw [grow]
    obtain ⟨hFe, hGe2⟩ := List.append_eq_nil.mp hsplit.symm
    subst hFe
    subst hGe2
    have hlevD : ∀ m ∈ atDepth D t, (D, m) ∈ drawn := by
      intro m hm
      rcases hc1 m hm with h | h
      · cases h
      · exact h
    have hnext : atDepth (D + 1) t = [] := by
      rw [List.eq_nil_iff_forall_not_mem]
      intro m hm
      rcases hc2 m hm with h | ⟨p, hp, _⟩
      · cases h
      · cases hp
    have hdeep : ∀ d2 : Nat, D + 1 ≤ d2 → atDepth d2 t = [] :=
      fun d2 h => atDepth_empty_mono hnext h
    refine ⟨?_, hsort, ?_, ?_, ?_, ?_⟩
    · intro p
      constructor
      · intro hp
        exact Or.inl hp
      · rintro (hp | ⟨hps, hpD, hpl⟩)
        · exact hp
        · rcases Nat.lt_or_ge D p.1 with h2 | h2
          · rw [hdeep p.1 (by omega)] at hps
            cases hps
          · have hpd : p.1 = D := by omega
            have := hlevD p.2 (by rw [← hpd]; exact hps)
            rw [← hpd] at this
            exact this
    · intro p hp
      cases hp
    · intro d2 m hm hl2
      exfalso
      rcases Nat.lt_or_ge D d2 with h2 | h2
      · rw [hdeep d2 (by omega)] at hm
        cases hm
      · have hd2 : d2 = D := by omega
        subst hd2
        have hmem := hlevD m hm
        have := (hdb _ hmem).2.1
        simp only at this
        omega
    · intro l
      constructor
      · intro hl
        exact Or.inl hl
      · rintro (hl | ⟨d2, m, hm, hd2, hl2, hlab⟩)
        · exact hl
        · rcases Nat.lt_or_ge D d2 with h2 | h2
          · rw [hdeep d2 (by omega)] at hm
            cases hm
          · have hd3 : d2 = D := by omega
            subst hd3
            subst hlab
            exact (hdl _ (hlevD m hm)).1
    · intro l
      constructor
      · intro hl
        exact Or.inl hl
      · rintro (hl | ⟨d2, m, hm, hd2, hl2, hlab⟩)
        · exact hl
        · rcases Nat.lt_or_ge D d2 with h2 | h2
          · rw [hdeep d2 (by omega)] at hm
            cases hm
          · have hd3 : d2 = D := by omega
            subst hd3
            subst hlab
            exact (hdl _ (hlevD m hm)).2
  | case2 drawn squares visible events d n rest hstop =>
    intro D F G hsplit hF hG hGe hD hc1 hc2 hdb hsort hdl
    replace hstop : limit < (d : Int) := hstop
    rw [grow, if_pos hstop]
    match F, hsplit with
    | [], hsplit =>
      have hGn : G = (d, n) :: rest := by simpa using hsplit.symm
      have hdD : d = D + 1 := (hG _ (by rw [hGn]; exact List.mem_cons_self _ _)).1
      have hDle : (D : Int) ≤ limit := by
        by_contra hcon
        have hnil := hGe (by omega)
        rw [hnil] at hGn
        cases hGn
      subst hdD
      have hlevD : ∀ m ∈ atDepth D t, (D, m) ∈ drawn := by
        intro m hm
        rcases hc1 m hm with h | h
        · cases h
        · exact h
      refine ⟨?_, hsort, ?_, ?_, ?_, ?_⟩
      · intro p
        constructor
        · intro hp
          exact Or.inl hp
        · rintro (hp | ⟨hps, hpD, hpl⟩)
          · exact hp
          · have hpd : p.1 = D := by omega
            have h3 := hlevD p.2 (by rw [← hpd] ; exact hps)
            rw [← hpd] at h3
            exact h3
      · intro p hp
        have h4 := hG p (by rw [hGn]; exact hp)
        refine ⟨by rw [h4.1]; exact h4.2, by rw [h4.1]; push_cast; omega⟩
      · intro d2 m hm hl2
        have hd2 : d2 = D + 1 := by omega
        subst hd2
        rcases hc2 m hm with h | ⟨p, hp, _⟩
        · rw [hGn] at h
          exact h
        · cases hp
      · intro l
        constructor
        · intro hl
          exact Or.inl hl
        · rintro (hl | ⟨d2, m, hm, hd2, hl2, hlab⟩)
          · exact hl
          · have hd3 : d2 = D := by omega
            subst hd3
            subst hlab
            exact (hdl _ (hlevD m hm)).1
      · intro l
        constructor
        · intro hl
          exact Or.inl hl
        · rintro (hl | ⟨d2, m, hm, hd2, hl2, hlab⟩)
          · exact hl
          · have hd3 : d2 = D := by omega
            subst hd3
            subst hlab
            exact (hdl _ (hlevD m hm)).2
    | (d0, n0) :: F1, hsplit =>
      have hsp2 := hsplit
      simp only [List.cons_append, List.cons.injEq, Prod.mk.injEq] at hsp2
      obtain ⟨⟨hd0, hn0⟩, hh2⟩ := hsp2
      subst hd0
      subst hn0
      have hdD : d = D := (hF _ (List.mem_cons_self _ _)).1
      subst hdD
      have hGnil : G = [] := hGe (by omega)
      subst hGnil
      rw [List.append_nil] at hh2
      subst hh2
      refine ⟨?_, hsort, ?_, ?_, ?_, ?_⟩
      · intro p
        constructor
        · intro hp
          exact Or.inl hp
        · rintro (hp | ⟨hps, hpD, hpl⟩)
          · exact hp
          · exfalso
            omega
      · intro p hp
        have h4 := hF p hp
        exact ⟨by rw [h4.1]; exact h4.2, by rw [h4.1]; omega⟩
      · intro d2 m hm hl2
        have hd2 : d2 = d := by omega
        subst hd2
        rcases hc1 m hm with h | h
        · exact h
        · exfalso
          have h5 := (hdb _ h).2.1
          simp only at h5
          omega
      · intro l
        constructor
        · intro hl
          exact Or.inl hl
        · rintro (hl | ⟨d2, m, hm, hd2, hl2, hlab⟩)
          · exact hl
          · exfalso
            omega
      · intro l
        constructor
        · intro hl
          exact Or.inl hl
        · rintro (hl | ⟨d2, m, hm, hd2, hl2, hlab⟩)
          · exact hl
          · exfalso
            omega
  | case3 drawn squares visible events d n rest hstop hmem ih =>
    intro D F G hsplit hF hG hGe hD hc1 hc2 hdb hsort hdl
    replace hstop : ¬ limit < (d : Int) := hstop
    rw [grow, if_neg hstop, if_pos hmem]
    match F, hsplit with
    | [], hsplit =>
      have hGn : G = (d, n) :: rest := by simpa using hsplit.symm
      have hhead := hG _ (by rw [hGn]; exact List.mem_cons_self _ _)
      simp only at hhead
      obtain ⟨hdD, hnD⟩ := hhead
      subst hdD
      have hDle : ((D : Int) + 1) ≤ limit := by
        have := not_lt.mp hstop
        push_cast at this
        omega
      have hpost := ih (D + 1) rest (n.children.map (fun c => (D + 1 + 1, c))) rfl
        (fun p hp => by
          have h9 := hG p (by rw [hGn]; exact List.mem_cons_of_mem _ hp)
          exact h9)
        (fun p hp => by
          obtain ⟨c, hc, hpc⟩ := List.mem_map.mp hp
          subst hpc
          exact ⟨rfl, mem_atDepth_succ.mpr ⟨n, hnD, hc⟩⟩)
        (fun hcon => by exfalso; omega)
        (by push_cast; omega)
        (fun m hm => by
          rcases hc2 m hm with h | ⟨p, hp, _⟩
          · rw [hGn] at h
            rcases List.mem_cons.mp h with h2 | h2
            · have hmn : m = n := by
                have := congrArg Prod.snd h2
                simpa using this
              subst hmn
              exact Or.inr (List.mem_cons_self _ _)
            · exact Or.inl h2
          · cases hp)
        (fun m2 hm2 => by
          obtain ⟨q, hq, hqc⟩ := mem_atDepth_succ.mp hm2
          rcases hc2 q hq with h | ⟨p, hp, _⟩
          · rw [hGn] at h
            rcases List.mem_cons.mp h with h2 | h2
            · have hqn : q = n := by
                have := congrArg Prod.snd h2
                simpa using this
              subst hqn
              exact Or.inl (List.mem_map.mpr ⟨m2, hqc, rfl⟩)
            · exact Or.inr ⟨(D + 1, q), h2, hqc⟩
          · cases hp)
        (fun p hp => by
          rcases List.mem_cons.mp hp with h2 | h2
          · subst h2
            exact ⟨hnD, hDle, le_refl _⟩
          · have h9 := hdb p h2
            exact ⟨h9.1, h9.2.1, by omega⟩)
        (List.Pairwise.cons (fun q hq => by
            have := (hdb q hq).2.2
            simp only
            omega) hsort)
        (fun p hp => by
          rcases List.mem_cons.mp hp with h2 | h2
          · subst h2
            exact ⟨hmem, List.mem_cons_self _ _⟩
          · have h9 := hdl p h2
            exact ⟨h9.1, List.mem_cons_of_mem _ h9.2⟩)
      obtain ⟨g1, g2, g3, g4, g5, g6⟩ := hpost
      have hlevD : ∀ m ∈ atDepth D t, (D, m) ∈ drawn := by
        intro m hm
        rcases hc1 m hm with h | h
        · cases h
        · exact h
      refine ⟨?_, g2, g3, g4, ?_, ?_⟩
      · intro p
        obtain ⟨pd, pn⟩ := p
        constructor
        · intro hp
          rcases (g1 (pd, pn)).mp hp with hp2 | ⟨hs, hge, hle⟩
          · rcases List.mem_cons.mp hp2 with h2 | h2
            · cases h2
              exact Or.inr ⟨hnD, Nat.le_succ D, hDle⟩
            · exact Or.inl h2
          · exact Or.inr ⟨hs, by simp only at hge ⊢; omega, hle⟩
        · rintro (hp | ⟨hs, hge, hle⟩)
          · exact (g1 (pd, pn)).mpr (Or.inl (List.mem_cons_of_mem _ hp))
          · simp only at hs hge hle
            rcases Nat.lt_or_ge pd (D + 1) with h2 | h2
            · have hpd : pd = D := by omega
              subst hpd
              exact (g1 (pd, pn)).mpr (Or.inl (List.mem_cons_of_mem _ (hlevD pn hs)))
            · exact (g1 (pd, pn)).mpr (Or.inr ⟨hs, h2, hle⟩)
      · intro l
        constructor
        · intro hl
          rcases (g5 l).mp hl with h2 | ⟨d2, m, hm, hge, hle, hlab⟩
          · exact Or.inl h2
          · exact Or.inr ⟨d2, m, hm, by omega, hle, hlab⟩
        · rintro (hl | ⟨d2, m, hm, hge, hle, hlab⟩)
          · exact (g5 l).mpr (Or.inl hl)
          · rcases Nat.lt_or_ge d2 (D + 1) with h2 | h2
            · have hd2 : d2 = D := by omega
              subst hd2
              exact (g5 l).mpr (Or.inl (hlab ▸ (hdl _ (hlevD m hm)).1))
            · exact (g5 l).mpr (Or.inr ⟨d2, m, hm, h2, hle, hlab⟩)
      · intro l
        constructor
        · intro hl
          rcases (g6 l).mp hl with h2 | ⟨d2, m, hm, hge, hle, hlab⟩
          · rcases List.mem_cons.mp h2 with h3 | h3
            · subst h3
              exact Or.inr ⟨D + 1, n, hnD, by omega, hDle, rfl⟩
            · exact Or.inl h3
          · exact Or.inr ⟨d2, m, hm, by omega, hle, hlab⟩
        · rintro (hl | ⟨d2, m, hm, hge, hle, hlab⟩)
          · exact (g6 l).mpr (Or.inl (List.mem_cons_of_mem _ hl))
          · rcases Nat.lt_or_ge d2 (D + 1) with h2 | h2
            · have hd2 : d2 = D := by omega
              subst hd2
              exact (g6 l).mpr (Or.inl (List.mem_cons_of_mem _ (hlab ▸ (hdl _ (hlevD m hm)).2)))
            · exact (g6 l).mpr (Or.inr ⟨d2, m, hm, h2, hle, hlab⟩)
    | (d0, n0) :: F1, hsplit =>
      have hsp2 := hsplit
      simp only [List.cons_append, List.cons.injEq, Prod.mk.injEq] at hsp2
      obtain ⟨⟨hd0, hn0⟩, hh2⟩ := hsp2
      subst hd0
      subst hn0
      obtain ⟨hdD, hnD⟩ := hF _ (List.mem_cons_self _ _)
      simp only at hdD hnD
      subst hdD
      have hDle : (d : Int) ≤ limit := not_lt.mp hstop
      subst hh2
      have hpost := ih d F1 (G ++ n.children.map (fun c => (d + 1, c)))
        (by rw [List.append_assoc])
        (fun p hp => hF p (List.mem_cons_of_mem _ hp))
        (fun p hp => by
          rcases List.mem_append.mp hp with h2 | h2
          · exact hG p h2
          · obtain ⟨c, hc, hpc⟩ := List.mem_map.mp h2
            subst hpc
            exact ⟨rfl, mem_atDepth_succ.mpr ⟨n, hnD, hc⟩⟩)
        (fun hcon => by exfalso; omega)
        (by omega)
        (fun m hm => by
          rcases hc1 m hm with h | h
          · rcases List.mem_cons.mp h with h2 | h2
            · have hmn : m = n := by
                have := congrArg Prod.snd h2
                simpa using this
              subst hmn
              exact Or.inr (List.mem_cons_self _ _)
            · exact Or.inl h2
          · exact Or.inr (List.mem_cons_of_mem _ h))
        (fun m2 hm2 => by
          rcases hc2 m2 hm2 with h | ⟨p, hp, hpc⟩
          · exact Or.inl (List.mem_append_left _ h)
          · rcases List.mem_cons.mp hp with h2 | h2
            · subst h2
              exact Or.inl (List.mem_append_right _ (List.mem_map.mpr ⟨m2, hpc, rfl⟩))
            · exact Or.inr ⟨p, h2, hpc⟩)
        (fun p hp => by
          rcases List.mem_cons.mp hp with h2 | h2
          · subst h2
            exact ⟨hnD, hDle, le_refl _⟩
          · exact hdb p h2)
        (List.Pairwise.cons (fun q hq => by
            have := (hdb q hq).2.2
            simp only
            omega) hsort)
        (fun p hp => by
          rcases List.mem_cons.mp hp with h2 | h2
          · subst h2
            exact ⟨hmem, List.mem_cons_self _ _⟩
          · have h9 := hdl p h2
            exact ⟨h9.1, List.mem_cons_of_mem _ h9.2⟩)
      obtain ⟨g1, g2, g3, g4, g5, g6⟩ := hpost
      refine ⟨?_, g2, g3, g4, ?_, ?_⟩
      · intro p
        obtain ⟨pd, pn⟩ := p
        constructor
        · intro hp
          rcases (g1 (pd, pn)).mp hp with hp2 | ⟨hs, hge, hle⟩
          · rcases List.mem_cons.mp hp2 with h2 | h2
            · cases h2
              exact Or.inr ⟨hnD, le_refl _, hDle⟩
            · exact Or.inl h2
          · exact Or.inr ⟨hs, hge, hle⟩
        · rintro (hp | ⟨hs, hge, hle⟩)
          · exact (g1 (pd, pn)).mpr (Or.inl (List.mem_cons_of_mem _ hp))
          · exact (g1 (pd, pn)).mpr (Or.inr ⟨hs, hge, hle⟩)
      · intro l
        constructor
        · intro hl
          exact (g5 l).mp hl
        · intro hl
          exact (g5 l).mpr hl
      · intro l
        constructor
        · intro hl
          rcases (g6 l).mp hl with h2 | h3
          · rcases List.mem_cons.mp h2 with h3 | h3
            · subst h3
              exact Or.inr ⟨d, n, hnD, le_refl _, hDle, rfl⟩
            · exact Or.inl h3
          · exact Or.inr h3
        · rintro (hl | ⟨d2, m, hm, hge, hle, hlab⟩)
          · exact (g6 l).mpr (Or.inl (List.mem_cons_of_mem _ hl))
          · exact (g6 l).mpr (Or.inr ⟨d2, m, hm, hge, hle, hlab⟩)
  | case4 drawn squares visible events d n rest hstop hmem ih =>
    intro D F G hsplit hF hG hGe hD hc1 hc2 hdb hsort hdl
    replace hstop : ¬ limit < (d : Int) := hstop
    rw [grow, if_neg hstop, if_neg hmem]
    match F, hsplit with
    | [], hsplit =>
      have hGn : G = (d, n) :: rest := by simpa using hsplit.symm
      have hhead := hG _ (by rw [hGn]; exact List.mem_cons_self _ _)
      simp only at hhead
      obtain ⟨hdD, hnD⟩ := hhead
      subst hdD
      have hDle : ((D : Int) + 1) ≤ limit := by
        have := not_lt.mp hstop
        push_cast at this
        omega
      have hpost := ih (D + 1) rest (n.children.map (fun c => (D + 1 + 1, c))) rfl
        (fun p hp => by
          have h9 := hG p (by rw [hGn]; exact List.mem_cons_of_mem _ hp)
          exact h9)
        (fun p hp => by
          obtain ⟨c, hc, hpc⟩ := List.mem_map.mp hp
          subst hpc
          exact ⟨rfl, mem_atDepth_succ.mpr ⟨n, hnD, hc⟩⟩)
        (fun hcon => by exfalso; omega)
        (by push_cast; omega)
        (fun m hm => by
          rcases hc2 m hm with h | ⟨p, hp, _⟩
          · rw [hGn] at h
            rcases List.mem_cons.mp h with h2 | h2
            · have hmn : m = n := by
                have := congrArg Prod.snd h2
                simpa using this
              subst hmn
              exact Or.inr (List.mem_cons_self _ _)
            · exact Or.inl h2
          · cases hp)
        (fun m2 hm2 => by
          obtain ⟨q, hq, hqc⟩ := mem_atDepth_succ.mp hm2
          rcases hc2 q hq with h | ⟨p, hp, _⟩
          · rw [hGn] at h
            rcases List.mem_cons.mp h with h2 | h2
            · have hqn : q = n := by
                have := congrArg Prod.snd h2
                simpa using this
              subst hqn
              exact Or.inl (List.mem_map.mpr ⟨m2, hqc, rfl⟩)
            · exact Or.inr ⟨(D + 1, q), h2, hqc⟩
          · cases hp)
        (fun p hp => by
          rcases List.mem_cons.mp hp with h2 | h2
          · subst h2
            exact ⟨hnD, hDle, le_refl _⟩
          · have h9 := hdb p h2
            exact ⟨h9.1, h9.2.1, by omega⟩)
        (List.Pairwise.cons (fun q hq => by
            have := (hdb q hq).2.2
            simp only
            omega) hsort)
        (fun p hp => by
          rcases List.mem_cons.mp hp with h2 | h2
          · subst h2
            exact ⟨List.mem_cons_self _ _, List.mem_cons_self _ _⟩
          · have h9 := hdl p h2
            exact ⟨List.mem_cons_of_mem _ h9.1, List.mem_cons_of_mem _ h9.2⟩)
      obtain ⟨g1, g2, g3, g4, g5, g6⟩ := hpost
      have hlevD : ∀ m ∈ atDepth D t, (D, m) ∈ drawn := by
        intro m hm
        rcases hc1 m hm with h | h
        · cases h
        · exact h
      refine ⟨?_, g2, g3, g4, ?_, ?_⟩
      · intro p
        obtain ⟨pd, pn⟩ := p
        constructor
        · intro hp
          rcases (g1 (pd, pn)).mp hp with hp2 | ⟨hs, hge, hle⟩
          · rcases List.mem_cons.mp hp2 with h2 | h2
            · cases h2
              exact Or.inr ⟨hnD, Nat.le_succ D, hDle⟩
            · exact Or.inl h2
          · exact Or.inr ⟨hs, by simp only at hge ⊢; omega, hle⟩
        · rintro (hp | ⟨hs, hge, hle⟩)
          · exact (g1 (pd, pn)).mpr (Or.inl (List.mem_cons_of_mem _ hp))
          · simp only at hs hge hle
            rcases Nat.lt_or_ge pd (D + 1) with h2 | h2
            · have hpd : pd = D := by omega
              subst hpd
              exact (g1 (pd, pn)).mpr (Or.inl (List.mem_cons_of_mem _ (hlevD pn hs)))
            · exact (g1 (pd, pn)).mpr (Or.inr ⟨hs, h2, hle⟩)
      · intro l
        constructor
        · intro hl
          rcases (g5 l).mp hl with h2 | ⟨d2, m, hm, hge, hle, hlab⟩
          · rcases List.mem_cons.mp h2 with h3 | h3
            · subst h3
              exact Or.inr ⟨D + 1, n, hnD, by omega, hDle, rfl⟩
            · exact Or.inl h3
          · exact Or.inr ⟨d2, m, hm, by omega, hle, hlab⟩
        · rintro (hl | ⟨d2, m, hm, hge, hle, hlab⟩)
          · exact (g5 l).mpr (Or.inl (List.mem_cons_of_mem _ hl))
          · rcases Nat.lt_or_ge d2 (D + 1) with h2 | h2
            · have hd2 : d2 = D := by omega
              subst hd2
              exact (g5 l).mpr (Or.inl (List.mem_cons_of_mem _
                (hlab ▸ (hdl _ (hlevD m hm)).1)))
            · exact (g5 l).mpr (Or.inr ⟨d2, m, hm, h2, hle, hlab⟩)
      · intro l
        constructor
        · intro hl
          rcases (g6 l).mp hl with h2 | ⟨d2, m, hm, hge, hle, hlab⟩
          · rcases List.mem_cons.mp h2 with h3 | h3
            · subst h3
              exact Or.inr ⟨D + 1, n, hnD, by omega, hDle, rfl⟩
            · exact Or.inl h3
          · exact Or.inr ⟨d2, m, hm, by omega, hle, hlab⟩
        · rintro (hl | ⟨d2, m, hm, hge, hle, hlab⟩)
          · exact (g6 l).mpr (Or.inl (List.mem_cons_of_mem _ hl))
          · rcases Nat.lt_or_ge d2 (D + 1) with h2 | h2
            · have hd2 : d2 = D := by omega
              subst hd2
              exact (g6 l).mpr (Or.inl (List.mem_cons_of_mem _
                (hlab ▸ (hdl _ (hlevD m hm)).2)))
            · exact (g6 l).mpr (Or.inr ⟨d2, m, hm, h2, hle, hlab⟩)
    | (d0, n0) :: F1, hsplit =>
      have hsp2 := hsplit
      simp only [List.cons_append, List.cons.injEq, Prod.mk.injEq] at hsp2
      obtain ⟨⟨hd0, hn0⟩, hh2⟩ := hsp2
      subst hd0
      subst hn0
      obtain ⟨hdD, hnD⟩ := hF _ (List.mem_cons_self _ _)
      simp only at hdD hnD
      subst hdD
      have hDle : (d : Int) ≤ limit := not_lt.mp hstop
      subst hh2
      have hpost := ih d F1 (G ++ n.children.map (fun c => (d + 1, c)))
        (by rw [List.append_assoc])
        (fun p hp => hF p (List.mem_cons_of_mem _ hp))
        (fun p hp => by
          rcases List.mem_append.mp hp with h2 | h2
          · exact hG p h2
          · obtain ⟨c, hc, hpc⟩ := List.mem_map.mp h2
            subst hpc
            exact ⟨rfl, mem_atDepth_succ.mpr ⟨n, hnD, hc⟩⟩)
        (fun hcon => by exfalso; omega)
        (by omega)
        (fun m hm => by
          rcases hc1 m hm with h | h
          · rcases List.mem_cons.mp h with h2 | h2
            · have hmn : m = n := by
                have := congrArg Prod.snd h2
                simpa using this
              subst hmn
              exact Or.inr (List.mem_cons_self _ _)
            · exact Or.inl h2
          · exact Or.inr (List.mem_cons_of_mem _ h))
        (fun m2 hm2 => by
          rcases hc2 m2 hm2 with h | ⟨p, hp, hpc⟩
          · exact Or.inl (List.mem_append_left _ h)
          · rcases List.mem_cons.mp hp with h2 | h2
            · subst h2
              exact Or.inl (List.mem_append_right _ (List.mem_map.mpr ⟨m2, hpc, rfl⟩))
            · exact Or.inr ⟨p, h2, hpc⟩)
        (fun p hp => by
          rcases List.mem_cons.mp hp with h2 | h2
          · subst h2
            exact ⟨hnD, hDle, le_refl _⟩
          · exact hdb p h2)
        (List.Pairwise.cons (fun q hq => by
            have := (hdb q hq).2.2
            simp only
            omega) hsort)
        (fun p hp => by
          rcases List.mem_cons.mp hp with h2 | h2
          · subst h2
            exact ⟨List.mem_cons_self _ _, List.mem_cons_self _ _⟩
          · have h9 := hdl p h2
            exact ⟨List.mem_cons_of_mem _ h9.1, List.mem_cons_of_mem _ h9.2⟩)
      obtain ⟨g1, g2, g3, g4, g5, g6⟩ := hpost
      refine ⟨?_, g2, g3, g4, ?_, ?_⟩
      · intro p
        obtain ⟨pd, pn⟩ := p
        constructor
        · intro hp
          rcases (g1 (pd, pn)).mp hp with hp2 | ⟨hs, hge, hle⟩
          · rcases List.mem_cons.mp hp2 with h2 | h2
            · cases h2
              exact Or.inr ⟨hnD, le_refl _, hDle⟩
            · exact Or.inl h2
          · exact Or.inr ⟨hs, hge, hle⟩
        · rintro (hp | ⟨hs, hge, hle⟩)
          · exact (g1 (pd, pn)).mpr (Or.inl (List.mem_cons_of_mem _ hp))
          · exact (g1 (pd, pn)).mpr (Or.inr ⟨hs, hge, hle⟩)
      · intro l
        constructor
        · intro hl
          rcases (g5 l).mp hl with h2 | h3
          · rcases List.mem_cons.mp h2 with h3 | h3
            · subst h3
              exact Or.inr ⟨d, n, hnD, le_refl _, hDle, rfl⟩
            · exact Or.inl h3
          · exact Or.inr h3
        · rintro (hl | ⟨d2, m, hm, hge, hle, hlab⟩)
          · exact (g5 l).mpr (Or.inl (List.mem_cons_of_mem _ hl))
          · exact (g5 l).mpr (Or.inr ⟨d2, m, hm, hge, hle, hlab⟩)
      · intro l
        constructor
        · intro hl
          rcases (g6 l).mp hl with h2 | h3
          · rcases List.mem_cons.mp h2 with h3 | h3
            · subst h3
              exact Or.inr ⟨d, n, hnD, le_refl _, hDle, rfl⟩
            · exact Or.inl h3
          · exact Or.inr h3
        · rintro (hl | ⟨d2, m, hm, hge, hle, hlab⟩)
          · exact (g6 l).mpr (Or.inl (List.mem_cons_of_mem _ hl))
          · exact (g6 l).mpr (Or.inr ⟨d2, m, hm, hge, hle, hlab⟩)


lemma grow_nil (limit : Int) (drawn : List (Nat × TNode)) (squares visible : List Nat)
    (events : List Ev) :
    grow limit drawn [] squares visible events = ⟨drawn, [], squares, visible, events⟩ := by
  rw [grow]

lemma grow_stop (limit : Int) (drawn : List (Nat × TNode)) (d : Nat) (n : TNode)
    (rest : List (Nat × TNode)) (squares visible : List Nat) (events : List Ev)
    (h : limit < (d : Int)) :
    grow limit drawn ((d, n) :: rest) squares visible events =
      ⟨drawn, (d, n) :: rest, squares, visible, events⟩ := by
  rw [grow, if_pos h]

lemma sorted_head_bound {p : Nat × TNode} {rest : List (Nat × TNode)}
    (h : List.Pairwise (fun a b => b.1 ≤ a.1) (p :: rest)) :
    ∀ q ∈ p :: rest, q.1 ≤ p.1 := by
  intro q hq
  rcases List.mem_cons.mp hq with h2 | h2
  · subst h2
    exact le_refl _
  · exact (List.pairwise_cons.mp h).1 q h2

lemma dropWhile_le (limit : Int) : ∀ (l : List (Nat × TNode)),
    List.Pairwise (fun a b => b.1 ≤ a.1) l →
    ∀ p ∈ l.dropWhile (fun p => decide (limit < (p.1 : Int))), (p.1 : Int) ≤ limit := by
  intro l
  induction l with
  | nil =>
    intro _ p hp
    simp only [List.dropWhile_nil] at hp
    cases hp
  | cons q rest ih =>
    intro hs p hp
    rw [List.dropWhile_cons] at hp
    by_cases hq : limit < (q.1 : Int)
    · rw [if_pos (by simpa using hq)] at hp
      exact ih (List.pairwise_cons.mp hs).2 p hp
    · rw [if_neg (by simpa using hq)] at hp
      have h2 := sorted_head_bound hs p hp
      have h3 : (q.1 : Int) ≤ limit := not_lt.mp hq
      have h4 : (p.1 : Int) ≤ (q.1 : Int) := by exact_mod_cast h2
      omega

lemma label_depth_unique {t : TNode} {K : Nat} (hK : atDepth K t = [])
    (hnd : (labelsUpTo K t).Nodup) {d₁ d₂ : Nat} {n₁ n₂ : TNode}
    (h₁ : n₁ ∈ atDepth d₁ t) (h₂ : n₂ ∈ atDepth d₂ t)
    (hl : n₁.label = n₂.label) : d₁ = d₂ := by
  by_contra hne
  have hd₁K : d₁ < K := by
    by_contra hcon
    rw [atDepth_empty_mono hK (by omega)] at h₁
    cases h₁
  have hd₂K : d₂ < K := by
    by_contra hcon
    rw [atDepth_empty_mono hK (by omega)] at h₂
    cases h₂
  rw [labelsUpTo, List.nodup_flatMap] at hnd
  obtain ⟨-, hpair⟩ := hnd
  have key : ∀ i j : Nat, i < j → j < K →
      ((atDepth i t).map TNode.label).Disjoint ((atDepth j t).map TNode.label) := by
    intro i j hij hjK
    have h5 := List.pairwise_iff_getElem.mp hpair i j
      (by simpa [List.length_range] using lt_trans hij hjK)
      (by simpa [List.length_range] using hjK)
      (by simpa using hij)
    simpa [List.getElem_range] using h5
  have hmem₁ : n₁.label ∈ (atDepth d₁ t).map TNode.label := List.mem_map.mpr ⟨n₁, h₁, rfl⟩
  have hmem₂ : n₂.label ∈ (atDepth d₂ t).map TNode.label := List.mem_map.mpr ⟨n₂, h₂, rfl⟩
  rcases Nat.lt_or_ge d₁ d₂ with hlt | hge
  · exact key d₁ d₂ hlt hd₂K hmem₁ (hl ▸ hmem₂)
  · have hlt2 : d₂ < d₁ := by omega
    exact key d₂ d₁ hlt2 hd₁K hmem₂ (hl ▸ hmem₁)


lemma inv_of_growPost {t : TNode} {L : Int} {drawn frontier : List (Nat × TNode)}
    {squares visible : List Nat} {events : List Ev} {D : Nat}
    (hpost : GrowPost t L drawn squares visible D
      (grow L drawn frontier squares visible events))
    (hdb : ∀ p ∈ drawn, p.2 ∈ atDepth p.1 t ∧ (p.1 : Int) ≤ L)
    (hcovD : ∀ (d : Nat) (n : TNode), n ∈ atDepth d t → (d : Int) ≤ L → d < D →
      (d, n) ∈ drawn)
    (hvis : ∀ l, l ∈ visible ↔ ∃ p ∈ drawn, p.2.label = l)
    (hvsq : ∀ l, l ∈ visible → l ∈ squares) :
    Inv t L (grow L drawn frontier squares visible events) := by
  obtain ⟨g1, g2, g3, g4, g5, g6⟩ := hpost
  refine ⟨?_, ?_, g2, fun p hp => ⟨(g3 p hp).1, Or.inl (g3 p hp).2⟩, fun _ => g4, ?_, ?_⟩
  · intro p hp
    rcases (g1 p).mp hp with h2 | ⟨hsnd, hge, hle⟩
    · exact hdb p h2
    · exact ⟨hsnd, hle⟩
  · intro d n hn hdL
    rcases Nat.lt_or_ge d D with h2 | h2
    · exact (g1 (d, n)).mpr (Or.inl (hcovD d n hn hdL h2))
    · exact (g1 (d, n)).mpr (Or.inr ⟨hn, h2, hdL⟩)
  · intro l
    constructor
    · intro hl
      rcases (g6 l).mp hl with h2 | ⟨d2, m, hm, hge, hle, hlab⟩
      · obtain ⟨p, hp, hpl⟩ := (hvis l).mp h2
        exact ⟨p, (g1 p).mpr (Or.inl hp), hpl⟩
      · exact ⟨(d2, m), (g1 (d2, m)).mpr (Or.inr ⟨hm, hge, hle⟩), hlab⟩
    · rintro ⟨p, hp, hpl⟩
      rcases (g1 p).mp hp with h2 | ⟨hsnd, hge, hle⟩
      · exact (g6 l).mpr (Or.inl ((hvis l).mpr ⟨p, h2, hpl⟩))
      · exact (g6 l).mpr (Or.inr ⟨p.1, p.2, hsnd, hge, hle, hpl⟩)
  · intro l hl
    rcases (g6 l).mp hl with h2 | ⟨d2, m, hm, hge, hle, hlab⟩
    · exact (g5 l).mpr (Or.inl (hvsq l h2))
    · exact (g5 l).mpr (Or.inr ⟨d2, m, hm, hge, hle, hlab⟩)


lemma drawTree_inv {t : TNode} {K : Nat} (hK : atDepth K t = [])
    (hnd : (labelsUpTo K t).Nodup) {L0 : Int} {s : St} (hs : Inv t L0 s) (L : Int) :
    Inv t L (drawTree t L s) := by
  obtain ⟨hdb0, hcov0, hsort0, hfs0, hfc0, hvis0, hvs0⟩ := hs
  obtain ⟨drawn, frontier, squares, visible, events⟩ := s
  simp only at hdb0 hcov0 hsort0 hfs0 hfc0 hvis0 hvs0
  rw [drawTree]
  cases drawn with
  | nil =>
    simp only [List.isEmpty_nil, if_true, depthWasDecreased, Bool.false_eq_true,
      if_false, shrink]
    have hL0 : L0 < 0 := by
      by_contra hcon
      have h9 := hcov0 0 t (by simp [atDepth]) (by omega)
      cases h9
    have hfr0 : ∀ p ∈ ((0, t) :: frontier : List (Nat × TNode)),
        p.1 = 0 ∧ p.2 ∈ atDepth 0 t := by
      intro p hp
      rcases List.mem_cons.mp hp with h2 | h2
      · subst h2
        exact ⟨rfl, by simp [atDepth]⟩
      · obtain ⟨hsnd, hdep⟩ := hfs0 p h2
        have hp0 : p.1 = 0 := by
          rcases hdep with h3 | h3
          · omega
          · exact h3.2
        exact ⟨hp0, by rw [← hp0]; exact hsnd⟩
    rcases lt_or_ge L 0 with hL | hL
    · rw [grow_stop L [] 0 t frontier squares visible events (by exact_mod_cast hL)]
      refine ⟨?_, ?_, List.Pairwise.nil, ?_, ?_, ?_, ?_⟩
      · intro p hp
        cases hp
      · intro d n hn hdL
        exfalso
        omega
      · intro p hp
        obtain ⟨hp0, hsnd⟩ := hfr0 p hp
        refine ⟨by rw [hp0]; exact hsnd, ?_⟩
        rw [hp0]
        by_cases hL1 : L = -1
        · left
          simp only [Nat.cast_zero]
          omega
        · right
          exact ⟨by omega, rfl⟩
      · intro hL1 d n hn hd1
        have hd0 : d = 0 := by omega
        subst hd0
        have hnt : n = t := by simpa [atDepth] using hn
        subst hnt
        exact List.mem_cons_self _ _
      · intro l
        rw [hvis0 l]
      · intro l hl
        exact hvs0 l hl
    · have hpost := grow_master t L [] ((0, t) :: frontier) squares visible events 0
        ((0, t) :: frontier) [] (by rw [List.append_nil]) hfr0
        (fun p hp => absurd hp (List.not_mem_nil p))
        (fun _ => rfl)
        (by omega)
        (fun n hn => by
          have hnt : n = t := by simpa [atDepth] using hn
          subst hnt
          exact Or.inl (List.mem_cons_self _ _))
        (fun m hm => by
          obtain ⟨q, hq, hqc⟩ := mem_atDepth_succ.mp hm
          have hqt : q = t := by simpa [atDepth] using hq
          exact Or.inr ⟨(0, t), List.mem_cons_self _ _, hqt ▸ hqc⟩)
        (fun p hp => absurd hp (List.not_mem_nil p))
        List.Pairwise.nil
        (fun p hp => absurd hp (List.not_mem_nil p))
      exact inv_of_growPost hpost (fun p hp => absurd hp (List.not_mem_nil p))
        (fun d n _ _ hd0 => absurd hd0 (by omega)) hvis0 hvs0
  | cons p₀ drest =>
    obtain ⟨d₀, n₀⟩ := p₀
    simp only [List.isEmpty_cons, Bool.false_eq_true, if_false, depthWasDecreased,
      decide_eq_true_eq]
    have hd₀L0 : (d₀ : Int) ≤ L0 := by
      have h8 := (hdb0 (d₀, n₀) (List.mem_cons_self _ _)).2
      simpa using h8
    have hL0 : 0 ≤ L0 := by omega
    have hbound := sorted_head_bound hsort0
    by_cases hdec : L < (d₀ : Int)
    · rw [if_pos (by simpa using hdec)]
      simp only []
      rw [shrink_drawn, shrink_frontier, shrink_squares, List.append_nil]
      have hkeptmem : ∀ p ∈ ((d₀, n₀) :: drest).dropWhile
          (fun p => decide (L < (p.1 : Int))), p ∈ (d₀, n₀) :: drest :=
        fun p hp => (List.dropWhile_sublist _).mem hp
      have hkeptle := dropWhile_le L ((d₀, n₀) :: drest) hsort0
      have hcovk : ∀ (d : Nat) (n : TNode), n ∈ atDepth d t → (d : Int) ≤ L →
          (d, n) ∈ ((d₀, n₀) :: drest).dropWhile (fun p => decide (L < (p.1 : Int))) := by
        intro d n hn hdL
        have hmem : (d, n) ∈ (d₀, n₀) :: drest := hcov0 d n hn (by omega)
        rw [← List.takeWhile_append_dropWhile
          (fun p => decide (L < (p.1 : Int))) ((d₀, n₀) :: drest)] at hmem
        rcases List.mem_append.mp hmem with h2 | h2
        · exfalso
          have h3 := List.mem_takeWhile_imp h2
          simp only [decide_eq_true_eq] at h3
          omega
        · exact h2
      have hfrmem : ∀ p ∈ (((d₀, n₀) :: drest).takeWhile
            (fun p => decide (L < (p.1 : Int)))).filter
            (fun p => decide ((p.1 : Int) = L + 1)),
          p.2 ∈ atDepth p.1 t ∧ (p.1 : Int) = L + 1 := by
        intro p hp
        obtain ⟨hp1, hp2⟩ := List.mem_filter.mp hp
        have hpd : p ∈ (d₀, n₀) :: drest := (List.takeWhile_sublist _).mem hp1
        exact ⟨(hdb0 p hpd).1, by simpa using hp2⟩
      have hfrcov : ∀ (d : Nat) (n : TNode), n ∈ atDepth d t → (d : Int) = L + 1 →
          (d, n) ∈ (((d₀, n₀) :: drest).takeWhile
            (fun p => decide (L < (p.1 : Int)))).filter
            (fun p => decide ((p.1 : Int) = L + 1)) := by
        intro d n hn hdL
        have hdmem : (d, n) ∈ (d₀, n₀) :: drest := hcov0 d n hn (by omega)
        rw [← List.takeWhile_append_dropWhile
          (fun p => decide (L < (p.1 : Int))) ((d₀, n₀) :: drest)] at hdmem
        rcases List.mem_append.mp hdmem with h2 | h2
        · exact List.mem_filter.mpr ⟨h2, by simpa using hdL⟩
        · exfalso
          have h3 := hkeptle _ h2
          simp only at h3
          omega
      have hvisk : ∀ l, l ∈ (shrink L squares ((d₀, n₀) :: drest) [] visible
            events).visible ↔ ∃ p ∈ ((d₀, n₀) :: drest).dropWhile
            (fun p => decide (L < (p.1 : Int))), p.2.label = l := by
        intro l
        rw [shrink_visible_mem]
        constructor
        · rintro ⟨hv, hcond⟩
          obtain ⟨p, hp, hpl⟩ := (hvis0 l).mp hv
          rw [← List.takeWhile_append_dropWhile
            (fun p => decide (L < (p.1 : Int))) ((d₀, n₀) :: drest)] at hp
          rcases List.mem_append.mp hp with h2 | h2
          · exact absurd hpl (hcond p h2 (by rw [hpl]; exact hvs0 l hv))
          · exact ⟨p, h2, hpl⟩
        · rintro ⟨p, hp, hpl⟩
          refine ⟨(hvis0 l).mpr ⟨p, hkeptmem p hp, hpl⟩, ?_⟩
          intro q hq hqsq hqle
          have hqd : L < (q.1 : Int) := by
            have h3 := List.mem_takeWhile_imp hq
            simpa using h3
          have hpd : (p.1 : Int) ≤ L := hkeptle p hp
          have hqmem : q ∈ (d₀, n₀) :: drest := (List.takeWhile_sublist _).mem hq
          have heq : q.1 = p.1 := label_depth_unique hK hnd (hdb0 q hqmem).1
            (hdb0 p (hkeptmem p hp)).1 (by rw [hqle, hpl])
          omega
      have hmain : Inv t L (St.mk
          (((d₀, n₀) :: drest).dropWhile (fun p => decide (L < (p.1 : Int))))
          ((((d₀, n₀) :: drest).takeWhile (fun p => decide (L < (p.1 : Int)))).filter
            (fun p => decide ((p.1 : Int) = L + 1))).reverse
          squares
          (shrink L squares ((d₀, n₀) :: drest) [] visible events).visible
          (shrink L squares ((d₀, n₀) :: drest) [] visible events).events) := by
        refine ⟨?_, hcovk, ?_, ?_, ?_, hvisk, ?_⟩
        · intro p hp
          exact ⟨(hdb0 p (hkeptmem p hp)).1, hkeptle p hp⟩
        · exact hsort0.sublist (List.dropWhile_sublist _)
        · intro p hp
          have h3 := hfrmem p (List.mem_reverse.mp hp)
          exact ⟨h3.1, Or.inl h3.2⟩
        · intro _ d n hn hd
          exact List.mem_reverse.mpr (hfrcov d n hn hd)
        · intro l hl
          have h3 := (shrink_visible_mem L squares ((d₀, n₀) :: drest) [] visible
            events l).mp hl
          exact hvs0 l h3.1
      match hfr : ((((d₀, n₀) :: drest).takeWhile
          (fun p => decide (L < (p.1 : Int)))).filter
          (fun p => decide ((p.1 : Int) = L + 1))).reverse with
      | [] =>
        rw [hfr] at hmain ⊢
        rw [grow_nil]
        exact hmain
      | (qd, qn) :: qs =>
        have hq1 : ((qd, qn) : Nat × TNode) ∈ (((d₀, n₀) :: drest).takeWhile
            (fun p => decide (L < (p.1 : Int)))).filter
            (fun p => decide ((p.1 : Int) = L + 1)) := by
          rw [← List.mem_reverse, hfr]
          exact List.mem_cons_self _ _
        have hq2 := hfrmem _ hq1
        rw [hfr] at hmain ⊢
        rw [grow_stop _ _ _ _ _ _ _ _ (by have := hq2.2; simp only at this; omega)]
        exact hmain
    · rw [if_neg (by simpa using hdec)]
      simp only []
      have hle : (d₀ : Int) ≤ L := not_lt.mp hdec
      have hshr : shrink L squares ((d₀, n₀) :: drest) frontier visible events =
          ⟨(d₀, n₀) :: drest, frontier, squares, visible, events⟩ := by
        rw [shrink]
        rw [if_pos hle]
      rw [hshr]
      simp only []
      match hfro : frontier with
      | [] =>
        have hemptyTop : atDepth (L0.toNat + 1) t = [] := by
          rw [List.eq_nil_iff_forall_not_mem]
          intro m hm
          have h9 := hfc0 (by omega) (L0.toNat + 1) m hm (by
            push_cast
            rw [Int.toNat_of_nonneg hL0])
          cases h9
        rw [grow_nil]
        refine ⟨?_, ?_, hsort0, ?_, ?_, hvis0, hvs0⟩
        · intro p hp
          refine ⟨(hdb0 p hp).1, ?_⟩
          have h3 := hbound p hp
          simp only at h3
          omega
        · intro d n hn hdL
          rcases lt_or_ge L0 (d : Int) with h2 | h2
          · exfalso
            have h3 : L0.toNat + 1 ≤ d := by omega
            rw [atDepth_empty_mono hemptyTop h3] at hn
            cases hn
          · exact hcov0 d n hn h2
        · intro p hp
          cases hp
        · intro hL1 d n hn hd
          exfalso
          rcases lt_or_ge L0 (d : Int) with h2 | h2
          · have h3 : L0.toNat + 1 ≤ d := by omega
            rw [atDepth_empty_mono hemptyTop h3] at hn
            cases hn
          · have h4 := hcov0 d n hn h2
            have h5 := hbound _ h4
            simp only at h5
            omega
      | (qd, qn) :: qs =>
        have hq := hfs0 (qd, qn) (List.mem_cons_self _ _)
        have hqd : (qd : Int) = L0 + 1 := by
          rcases hq.2 with h | h
          · simpa using h
          · omega
        have hqsound : qn ∈ atDepth qd t := hq.1
        by_cases hstop2 : L < (qd : Int)
        · have hLL0 : L = L0 := by
            by_contra hne
            have hemp : atDepth (d₀ + 1) t = [] := by
              rw [List.eq_nil_iff_forall_not_mem]
              intro m hm
              have h9 := hcov0 (d₀ + 1) m hm (by omega)
              have h10 := hbound _ h9
              simp only at h10
              omega
            have hqe := atDepth_empty_mono hemp (show d₀ + 1 ≤ qd by omega)
            rw [hqe] at hqsound
            cases hqsound
          subst hLL0
          rw [grow_stop _ _ _ _ _ _ _ _ hstop2]
          refine ⟨hdb0, hcov0, hsort0, ?_, ?_, hvis0, hvs0⟩
          · exact hfs0
          · exact hfc0
        · have hqle : (qd : Int) ≤ L := not_lt.mp hstop2
          have hF : ∀ p ∈ ((qd, qn) :: qs : List (Nat × TNode)),
              p.1 = qd ∧ p.2 ∈ atDepth qd t := by
            intro p hp
            have h3 := hfs0 p hp
            have h4 : (p.1 : Int) = L0 + 1 := by
              rcases h3.2 with h | h
              · exact h
              · omega
            have h5 : p.1 = qd := by omega
            exact ⟨h5, by rw [← h5]; exact h3.1⟩
          have hpost := grow_master t L ((d₀, n₀) :: drest) ((qd, qn) :: qs)
            squares visible events qd ((qd, qn) :: qs) []
            (by rw [List.append_nil]) hF
            (fun p hp => absurd hp (List.not_mem_nil p))
            (fun _ => rfl)
            (by omega)
            (fun n hn => Or.inl (hfc0 (by omega) qd n hn (by omega)))
            (fun m hm => by
              obtain ⟨par, hpar, hmch⟩ := mem_atDepth_succ.mp hm
              have h9 := hfc0 (by omega) qd par hpar (by omega)
              exact Or.inr ⟨(qd, par), h9, hmch⟩)
            (fun p hp => by
              have h8 := hdb0 p hp
              refine ⟨h8.1, by omega, ?_⟩
              have h9 : (p.1 : Int) < (qd : Int) := by omega
              omega)
            hsort0
            (fun p hp => ⟨hvs0 _ ((hvis0 _).mpr ⟨p, hp, rfl⟩),
              (hvis0 _).mpr ⟨p, hp, rfl⟩⟩)
          exact inv_of_growPost hpost
            (fun p hp => ⟨(hdb0 p hp).1, by have := (hdb0 p hp).2; omega⟩)
            (fun d n hn hdL hdlt => hcov0 d n hn (by
              have h9 : (d : Int) < (qd : Int) := by exact_mod_cast hdlt
              omega))
            hvis0 hvs0

/-- The initial controller state satisfies the invariant at the sentinel
limit -2 (no tree level has been requested yet). -/
lemma inv_initSt (t : TNode) : Inv t (-2) initSt :=
  ⟨fun p hp => absurd hp (List.not_mem_nil p),
   fun _ n _ hd => absurd hd (by omega),
   List.Pairwise.nil,
   fun p hp => absurd hp (List.not_mem_nil p),
   fun h => absurd h (by omega),
   fun l => ⟨fun h => absurd h (List.not_mem_nil l),
     fun ⟨p, hp, _⟩ => absurd hp (List.not_mem_nil p)⟩,
   fun l h => absurd h (List.not_mem_nil l)⟩

/-- Running a whole sequence of draw calls preserves the invariant, ending
at the limit of the last call. -/
lemma applyCalls_inv {t : TNode} {K : Nat} (hK : atDepth K t = [])
    (hnd : (labelsUpTo K t).Nodup) :
    ∀ (ls : List Int) (L0 : Int) (s : St), Inv t L0 s →
      Inv t (lastLimit ls L0) (applyCalls t ls s)
  | [], _, _, hs => hs
  | l :: ls, L0, s, hs => by
    have hs2 : Inv t L0 { s with events := [] } := by
      obtain ⟨h1, h2, h3, h4, h5, h6, h7⟩ := hs
      exact ⟨h1, h2, h3, h4, h5, h6, h7⟩
    show Inv t (lastLimit ls l)
      (applyCalls t ls (drawTree t l { s with events := [] }))
    exact applyCalls_inv hK hnd ls l (drawTree t l { s with events := [] })
      (drawTree_inv hK hnd hs2 l)

lemma lastLimit_append_single :
    ∀ (ls : List Int) (L dflt : Int), lastLimit (ls ++ [L]) dflt = L
  | [], _, _ => rfl
  | l :: ls, L, _ => lastLimit_append_single ls L l

/-- Hide events contribute nothing to the create count. -/
lemma countCreates_hides (l : Nat) (ps : List (Nat × TNode)) :
    countCreates l (ps.map (fun p => Ev.hideEv p.2.label)) = 0 := by
  induction ps with
  | nil => rfl
  | cons p ps ih =>
    simp only [countCreates, List.map_cons, List.filter_cons] at ih ⊢
    simpa using ih

/-- The shrink-then-grow pipeline emits one create event for a label
exactly when the label newly enters the square store. -/
lemma shrinkGrow_createCount (L : Int) (dr fr : List (Nat × TNode))
    (sq vis : List Nat) (ev : List Ev) (l : Nat) :
    countCreates l (grow L (shrink L sq dr fr vis ev).drawn
      (shrink L sq dr fr vis ev).frontier (shrink L sq dr fr vis ev).squares
      (shrink L sq dr fr vis ev).visible (shrink L sq dr fr vis ev).events).events =
    countCreates l ev +
      (if l ∈ (grow L (shrink L sq dr fr vis ev).drawn
          (shrink L sq dr fr vis ev).frontier (shrink L sq dr fr vis ev).squares
          (shrink L sq dr fr vis ev).visible
          (shrink L sq dr fr vis ev).events).squares ∧ l ∉ sq
       then 1 else 0) := by
  rw [grow_createCount]
  rw [shrink_squares, shrink_events, countCreates_append, countCreates_hides]
  omega

/-- The square store only ever gains labels through the pipeline. -/
lemma shrinkGrow_squares_mono (L : Int) (dr fr : List (Nat × TNode))
    (sq vis : List Nat) (ev : List Ev) (l : Nat) (h : l ∈ sq) :
    l ∈ (grow L (shrink L sq dr fr vis ev).drawn
      (shrink L sq dr fr vis ev).frontier (shrink L sq dr fr vis ev).squares
      (shrink L sq dr fr vis ev).visible
      (shrink L sq dr fr vis ev).events).squares := by
  apply grow_squares_mono
  rw [shrink_squares]
  exact h

/-- A single draw call emits one create event for a label exactly when the
label newly enters the square store during that call. -/
lemma drawTree_createCount (t : TNode) (L : Int) (s : St) (l : Nat) :
    countCreates l (drawTree t L s).events =
      countCreates l s.events +
        (if l ∈ (drawTree t L s).squares ∧ l ∉ s.squares then 1 else 0) := by
  obtain ⟨drawn, frontier, squares, visible, events⟩ := s
  rw [drawTree]
  simp only []
  by_cases h1 : (drawn : List (Nat × TNode)).isEmpty = true
  · rw [if_pos h1]
    by_cases h2 : depthWasDecreased L drawn = true
    · rw [if_pos h2]
      exact shrinkGrow_createCount L _ _ _ _ _ l
    · rw [if_neg h2]
      exact shrinkGrow_createCount L _ _ _ _ _ l
  · rw [if_neg h1]
    by_cases h2 : depthWasDecreased L drawn = true
    · rw [if_pos h2]
      exact shrinkGrow_createCount L _ _ _ _ _ l
    · rw [if_neg h2]
      exact shrinkGrow_createCount L _ _ _ _ _ l

/-- A single draw call never removes a label from the square store. -/
lemma drawTree_squares_mono (t : TNode) (L : Int) (s : St) (l : Nat)
    (h : l ∈ s.squares) : l ∈ (drawTree t L s).squares := by
  obtain ⟨drawn, frontier, squares, visible, events⟩ := s
  rw [drawTree]
  simp only []
  by_cases h1 : (drawn : List (Nat × TNode)).isEmpty = true
  · rw [if_pos h1]
    by_cases h2 : depthWasDecreased L drawn = true
    · rw [if_pos h2]
      exact shrinkGrow_squares_mono L _ _ _ _ _ l h
    · rw [if_neg h2]
      exact shrinkGrow_squares_mono L _ _ _ _ _ l h
  · rw [if_neg h1]
    by_cases h2 : depthWasDecreased L drawn = true
    · rw [if_pos h2]
      exact shrinkGrow_squares_mono L _ _ _ _ _ l h
    · rw [if_neg h2]
      exact shrinkGrow_squares_mono L _ _ _ _ _ l h

/-- Across a whole sequence of calls, the total number of create events for
a label records exactly whether the label entered the square store. -/
lemma runCalls_createCount (t : TNode) (l : Nat) :
    ∀ (ls : List Int) (s : St),
      ((runCalls t ls s).2.map (countCreates l)).sum +
          (if l ∈ s.squares then 1 else 0) =
        (if l ∈ (runCalls t ls s).1.squares then 1 else 0) := by
  intro ls
  induction ls with
  | nil =>
    intro s
    simp [runCalls]
  | cons l0 ls ih =>
    intro s
    simp only [runCalls, List.map_cons, List.sum_cons]
    have h1 := drawTree_createCount t l0 { s with events := [] } l
    have h2 := ih (drawTree t l0 { s with events := [] })
    have hmono : l ∈ s.squares →
        l ∈ (drawTree t l0 { s with events := [] }).squares := fun h =>
      drawTree_squares_mono t l0 { s with events := [] } l h
    simp only [countCreates, List.filter_nil, List.length_nil] at h1
    by_cases hs : l ∈ s.squares
    · have hs1 := hmono hs
      rw [if_pos hs]
      rw [if_pos hs1] at h2
      rw [if_neg (fun hand => hand.2 hs)] at h1
      rw [show countCreates l (drawTree t l0 { s with events := [] }).events =
        (List.filter (fun e => decide (e = Ev.createEv l))
          (drawTree t l0 { s with events := [] }).events).length from rfl]
      omega
    · rw [if_neg hs]
      rw [show countCreates l (drawTree t l0 { s with events := [] }).events =
        (List.filter (fun e => decide (e = Ev.createEv l))
          (drawTree t l0 { s with events := [] }).events).length from rfl]
      by_cases hs1 : l ∈ (drawTree t l0 { s with events := [] }).squares
      · rw [if_pos ⟨hs1, hs⟩] at h1
        rw [if_pos hs1] at h2
        omega
      · rw [if_neg (fun hand => hs1 hand.1)] at h1
        rw [if_neg hs1] at h2
        omega

/-- C1: with a tree set on the controller, after any finite sequence of
set_depth_limit calls whose last call has limit L, the visible labels are
exactly the labels of the nodes of depth at most L, regardless of how the
sequence reached L. -/
theorem depth_limit_visible_set {t : TNode} {K : Nat}
    (hK : atDepth K t = []) (hnd : (labelsUpTo K t).Nodup)
    (ls : List Int) (L : Int) :
    ∀ l : Nat, l ∈ (applyCalls t (ls ++ [L]) initSt).visible ↔
      ∃ (d : Nat) (n : TNode), n ∈ atDepth d t ∧ (d : Int) ≤ L ∧ n.label = l := by
  have hinv := applyCalls_inv hK hnd (ls ++ [L]) (-2) initSt (inv_initSt t)
  rw [lastLimit_append_single] at hinv
  obtain ⟨hdb, hcov, _, _, _, hvis, _⟩ := hinv
  intro l
  constructor
  · intro hl
    obtain ⟨p, hp, hpl⟩ := (hvis l).mp hl
    exact ⟨p.1, p.2, (hdb p hp).1, (hdb p hp).2, hpl⟩
  · rintro ⟨d, n, hn, hdL, hlab⟩
    exact (hvis l).mpr ⟨(d, n), hcov d n hn hdL, hlab⟩

theorem depth_limit_visible_set_witness :
    atDepth 3 binTree3 = [] ∧ (labelsUpTo 3 binTree3).Nodup ∧
    (5 ∈ (applyCalls binTree3 ([0, -3] ++ [2]) initSt).visible ↔
      ∃ (d : Nat) (n : TNode), n ∈ atDepth d binTree3 ∧ (d : Int) ≤ 2 ∧
        n.label = 5) :=
  ⟨rfl, by decide, @depth_limit_visible_set binTree3 3 rfl (by decide) [0, -3] 2 5⟩

/-- C7: a label receives at most one create event across any sequence of
calls, and on the 3-level binary tree the call sequence 0, 2, 0, 2 emits
per call exactly (1 create), (6 creates, 0 shows, 0 hides),
(6 hides, 0 creates), (6 shows, 0 creates). -/
theorem at_most_one_create_per_node :
    (∀ (t : TNode) (ls : List Int) (l : Nat),
      ((runCalls t ls initSt).2.map (countCreates l)).sum ≤ 1) ∧
    (runCalls binTree3 [0, 2, 0, 2] initSt).2.map
        (fun evs => (totalCreates evs, totalShows evs, totalHides evs)) =
      [(1, 0, 0), (6, 0, 0), (0, 0, 6), (0, 6, 0)] := by
  constructor
  · intro t ls l
    have h := runCalls_createCount t l ls initSt
    have h0 : (if l ∈ initSt.squares then 1 else 0) = 0 := by simp [initSt]
    rw [h0] at h
    have h2 : (if l ∈ (runCalls t ls initSt).1.squares then 1 else 0) ≤ 1 := by
      split <;> omega
    omega
  · set_option maxHeartbeats 1000000 in
    simp [runCalls, drawTree, grow, shrink, depthWasDecreased, binTree3, initSt,
      TNode.children, TNode.label, totalCreates, totalShows, totalHides,
      List.filter]

/-- C8, counterexample: after the calls 0 then -2 on the 3-level binary
tree nothing is visible, but the frontier is empty too — the root entry at
depth 0 is not kept pending in the frontier at limit -2. -/
theorem negative_limit_frontier_counterexample :
    (applyCalls binTree3 [0, -2] initSt).visible = [] ∧
    (applyCalls binTree3 [0, -2] initSt).frontier.length = 0 := by
  constructor <;>
  · set_option maxHeartbeats 1000000 in
    simp [applyCalls, runCalls, drawTree, grow, shrink, depthWasDecreased,
      binTree3, initSt, TNode.children, TNode.label]

/-- C8, amended: any integer limit is accepted; after a call with a
negative limit nothing is visible; the root is kept in the frontier when
that limit is exactly -1; and whatever the negative limit was, one further
call with limit L makes visible exactly the labels of depth at most L. -/
theorem negative_limit_amended {t : TNode} {K : Nat}
    (hK : atDepth K t = []) (hnd : (labelsUpTo K t).Nodup)
    (ls : List Int) (Ln : Int) (hn : Ln < 0) :
    (applyCalls t (ls ++ [Ln]) initSt).visible = [] ∧
    (Ln = -1 → (0, t) ∈ (applyCalls t (ls ++ [Ln]) initSt).frontier) ∧
    (∀ (L : Int) (l : Nat),
      l ∈ (applyCalls t ((ls ++ [Ln]) ++ [L]) initSt).visible ↔
        ∃ (d : Nat) (n : TNode), n ∈ atDepth d t ∧ (d : Int) ≤ L ∧
          n.label = l) := by
  have hinv := applyCalls_inv hK hnd (ls ++ [Ln]) (-2) initSt (inv_initSt t)
  rw [lastLimit_append_single] at hinv
  obtain ⟨hdb, hcov, hsort, hfs, hfc, hvis, hvsq⟩ := hinv
  refine ⟨?_, ?_, ?_⟩
  · rw [List.eq_nil_iff_forall_not_mem]
    intro l hl
    obtain ⟨p, hp, _⟩ := (hvis l).mp hl
    have h2 := (hdb p hp).2
    omega
  · intro hm1
    exact hfc (by omega) 0 t (by simp [atDepth]) (by omega)
  · intro L l
    have hinv2 := applyCalls_inv hK hnd ((ls ++ [Ln]) ++ [L]) (-2) initSt
      (inv_initSt t)
    rw [lastLimit_append_single] at hinv2
    obtain ⟨hdb2, hcov2, _, _, _, hvis2, _⟩ := hinv2
    constructor
    · intro hl
      obtain ⟨p, hp, hpl⟩ := (hvis2 l).mp hl
      exact ⟨p.1, p.2, (hdb2 p hp).1, (hdb2 p hp).2, hpl⟩
    · rintro ⟨d, n, hn2, hdL, hlab⟩
      exact (hvis2 l).mpr ⟨(d, n), hcov2 d n hn2 hdL, hlab⟩

theorem negative_limit_amended_witness :
    atDepth 3 binTree3 = [] ∧ (labelsUpTo 3 binTree3).Nodup ∧ (-2 : Int) < 0 ∧
    ((applyCalls binTree3 ([0] ++ [-2]) initSt).visible = [] ∧
     ((-2 : Int) = -1 →
       (0, binTree3) ∈ (applyCalls binTree3 ([0] ++ [-2]) initSt).frontier) ∧
     (∀ (L : Int) (l : Nat),
       l ∈ (applyCalls binTree3 (([0] ++ [-2]) ++ [L]) initSt).visible ↔
         ∃ (d : Nat) (n : TNode), n ∈ atDepth d binTree3 ∧ (d : Int) ≤ L ∧
           n.label = l)) :=
  ⟨rfl, by decide, by decide,
    @negative_limit_amended binTree3 3 rfl (by decide) [0] (-2) (by decide)⟩

end PyTree
